import Mathlib

/-!
# Streaming decode of chat messages (`api_chat_stream.go`)

A shallow embedding of `chatMessagesStreamHandle`: the line-oriented loop that
reads the response body, decodes every `data:` line and pushes the outcome on
the output channel.  The run of the handler is an explicit trace of effects
(reads, sends, the two deferred closes).  The initiators `ChatMessagesStreamRaw`
and `ChatMessagesStream` are embedded over their collaborators.
-/

namespace Dify

/-! ## Bytes, strings and errors -/

/-- A byte of the response body (a value below 256). -/
abbrev Byte := Nat

/-- The bytes of an ASCII string constant of the source. -/
def bytesOf (s : String) : List Byte := s.toList.map Char.toNat

/-- The delimiter handed to `ReadBytes`: the byte `'\n'`. -/
def newline : Byte := 10

/-- Go error values, as far as the handler builds or receives them. -/
inductive GoError where
  /-- The sentinel `io.EOF`. -/
  | EOF : GoError
  /-- Any other error produced by a library (a network read error, an
  `encoding/json` error), identified by its message. -/
  | Lib (msg : List Byte) : GoError
  /-- The value of `errors.New(text)`. -/
  | New (text : List Byte) : GoError
  /-- The value of `fmt.Errorf(pfx + "%w", cause)`. -/
  | Errorf (pfx : List Byte) (cause : GoError) : GoError
  deriving DecidableEq, Repr

/-- The method `Error()`: the text of an error. -/
def GoError.Error : GoError → List Byte
  | .EOF => bytesOf "EOF"
  | .Lib msg => msg
  | .New text => text
  | .Errorf pfx cause => pfx ++ cause.Error

/-- The method `Unwrap()`: the cause wrapped by `%w`, if any. -/
def GoError.Unwrap : GoError → Option GoError
  | .Errorf _ cause => some cause
  | _ => none

/-! ## The event types -/

/-- A value held in an `interface{}` field after JSON decoding; `null` is the
nil interface, the zero value. Numbers are kept as the text of the literal. -/
inductive Any where
  | null : Any
  | bool (b : Bool) : Any
  | number (text : String) : Any
  | string (s : String) : Any
  | array (xs : List Any) : Any
  | object (kvs : List (String × Any)) : Any

instance : Inhabited Any := ⟨Any.null⟩

/-- The anonymous struct of the field `Metadata`. -/
structure Metadata where
  Usage : Any := Any.null
  RetrieverResources : List Any := []

/-- The anonymous struct of the field `Data.ExecutionMetadata`; the float is
carried as the text of its literal (no arithmetic is done on it). -/
structure ExecutionMetadata where
  TotalTokens : Int := 0
  TotalPrice : String := ""
  Currency : String := ""

/-- The anonymous struct of the field `Data`; the float `ElapsedTime` is
carried as the text of its literal. -/
structure Data where
  Id : String := ""
  CreatedAt : Int := 0
  FinishedAt : Int := 0
  WorkflowId : String := ""
  SequenceNumber : Int := 0
  NodeId : String := ""
  NodeType : String := ""
  Title : String := ""
  Index : Int := 0
  PredecessorNodeId : String := ""
  ProcessData : String := ""
  Status : String := ""
  Error : String := ""
  ElapsedTime : String := ""
  Inputs : Any := Any.null
  Outputs : Any := Any.null
  TotalTokens : Int := 0
  TotalSteps : Int := 0
  ExecutionMetadata : ExecutionMetadata := {}

/-- The struct `ChatMessageStreamResponse`; the default value of every field
is Go's zero value. -/
structure ChatMessageStreamResponse where
  Event : String := ""
  TaskID : String := ""
  ID : String := ""
  Answer : String := ""
  CreatedAt : Int := 0
  ConversationID : String := ""
  Type_ : String := ""
  BelongsTo : String := ""
  Url : String := ""
  Audio : String := ""
  WorkflowRunId : String := ""
  Metadata : Metadata := {}
  Data : Data := {}

/-- The struct `ChatMessageStreamChannelResponse`: the embedded response and
the field `Err` (`nil` is `none`). -/
structure ChatMessageStreamChannelResponse extends ChatMessageStreamResponse where
  Err : Option GoError := none

/-- The decoder `json.Unmarshal(line, &resp)` applied to a fresh zero-valued
`resp`: the fields it leaves in the embedded response (possibly some of them
filled even when it fails) and the error it returns.  `Err` carries the tag
`json:"-"`, so the decoder never touches it.  The decoder belongs to the
standard library and is a parameter of the handler. -/
abbrev Unmarshal := List Byte → ChatMessageStreamResponse × Option GoError

/-! ## The response body and its buffered reader -/

/-- A finite response body: the bytes it yields and the error its `Read`
returns once they are exhausted (`io.EOF` at a regular end of stream). -/
structure Body where
  data : List Byte
  err : GoError

/-- The state of the `bufio.Reader` wrapped around the body: what is still
unread. -/
structure Reader where
  rest : List Byte
  err : GoError

/-- The call `bufio.NewReader(resp.Body)`; it reads nothing. -/
def NewReader (b : Body) : Reader := ⟨b.data, b.err⟩

/-- Splits at the first occurrence of `delim`: the bytes up to and including
it and the bytes after it, or `none` when `delim` does not occur. -/
def splitDelim (delim : Byte) : List Byte → Option (List Byte × List Byte)
  | [] => none
  | b :: bs =>
    if b = delim then some ([b], bs)
    else
      match splitDelim delim bs with
      | some (line, rest) => some (b :: line, rest)
      | none => none

/-- The method `ReadBytes(delim)`: reads until the first occurrence of
`delim` and returns the bytes up to and including it; when the body fails
before a delimiter is found, it returns the bytes read so far and the error. -/
def Reader.ReadBytes (r : Reader) (delim : Byte) : List Byte × Option GoError × Reader :=
  match splitDelim delim r.rest with
  | some (line, rest) => (line, none, ⟨rest, r.err⟩)
  | none => (r.rest, some r.err, ⟨[], r.err⟩)

/-- The function `bytes.HasPrefix`. -/
def HasPrefix : List Byte → List Byte → Bool
  | _, [] => true
  | [], _ :: _ => false
  | a :: s, b :: p => a == b && HasPrefix s p

/-- The function `bytes.TrimPrefix`: `s` without the leading `pfx` when it
has that prefix, else `s` unchanged. -/
def TrimPrefix (s pfx : List Byte) : List Byte :=
  if HasPrefix s pfx then s.drop pfx.length else s

/-! ## The handler -/

/-- What a run of the handler does to the outside, in order. -/
inductive Effect where
  /-- One call of `reader.ReadBytes('\n')`. -/
  | read : Effect
  /-- One send `streamChannel <- item`. -/
  | send (item : ChatMessageStreamChannelResponse) : Effect
  /-- The deferred `close(streamChannel)`. -/
  | closeChannel : Effect
  /-- The deferred `resp.Body.Close()`. -/
  | closeBody : Effect

/-- The `for` loop of `chatMessagesStreamHandle`.  `done k` tells whether
`ctx.Done()` is found ready by the `select` of iteration `k`; `fuel` bounds
the number of iterations (`none` when it runs out).  The result is the
trace of the effects up to the `return`. -/
def streamLoop (unmarshal : Unmarshal) (done : Nat → Bool) :
    Nat → Nat → Reader → Option (List Effect)
  | 0, _, _ => none
  | fuel + 1, k, reader =>
    if done k then
      some []
    else
      match reader.ReadBytes newline with
      | (_, some err, _) =>
        some [Effect.read,
          Effect.send { Err := some (GoError.Errorf (bytesOf "error reading line: ") err) }]
      | (line, none, reader) =>
        if !HasPrefix line (bytesOf "data:") then
          (streamLoop unmarshal done fuel (k + 1) reader).map (Effect.read :: ·)
        else
          let line := TrimPrefix line (bytesOf "data:")
          match unmarshal line with
          | (_, some err) =>
            some [Effect.read,
              Effect.send { Err := some (GoError.Errorf (bytesOf "error unmarshalling event: ") err) }]
          | (resp, none) =>
            if resp.Event = "error" then
              some [Effect.read,
                Effect.send { Err := some (GoError.New (bytesOf "error streaming event: " ++ line)) }]
            else if resp.Event = "workflow_finished" then
              some [Effect.read, Effect.send { toChatMessageStreamResponse := resp }]
            else
              (streamLoop unmarshal done fuel (k + 1) reader).map
                (fun t => Effect.read :: Effect.send { toChatMessageStreamResponse := resp } :: t)

/-- The method `chatMessagesStreamHandle`: the loop over a fresh reader, then
the deferred calls in reverse order of their registration
(`close(streamChannel)` was deferred last and runs first).  Every iteration
that continues has consumed at least one byte, so `data.length + 1`
iterations always suffice. -/
def chatMessagesStreamHandle (unmarshal : Unmarshal) (done : Nat → Bool) (body : Body) :
    Option (List Effect) :=
  (streamLoop unmarshal done (body.data.length + 1) 0 (NewReader body)).map
    (· ++ [Effect.closeChannel, Effect.closeBody])

/-- The items sent on the channel in a trace, in order. -/
def sent : List Effect → List ChatMessageStreamChannelResponse
  | [] => []
  | Effect.send item :: t => item :: sent t
  | _ :: t => sent t

/-- The sequence of items delivered on the channel by a run of the handler. -/
def delivered (unmarshal : Unmarshal) (done : Nat → Bool) (body : Body) :
    Option (List ChatMessageStreamChannelResponse) :=
  (chatMessagesStreamHandle unmarshal done body).map sent

/-! ## Vocabulary of the statements -/

/-- The stream made of the given lines, each followed by its newline. -/
def joinLines : List (List Byte) → List Byte
  | [] => []
  | l :: ls => l ++ newline :: joinLines ls

/-- The text `l` holds no newline, so that `l` followed by a newline is read
as one line. -/
def isLine (l : List Byte) : Bool := l.all (· != newline)

/-- The line `l` (read with its newline) is a `data:` frame. -/
def isData (l : List Byte) : Bool := HasPrefix (l ++ [newline]) (bytesOf "data:")

/-- The bytes of the line `l` handed to the decoder. -/
def frameText (l : List Byte) : List Byte := TrimPrefix (l ++ [newline]) (bytesOf "data:")

/-- The result of the decoder on the frame of line `l`. -/
def decode (unmarshal : Unmarshal) (l : List Byte) : ChatMessageStreamResponse × Option GoError :=
  unmarshal (frameText l)

/-- The line `l` is a frame that decodes without error. -/
def decodes (unmarshal : Unmarshal) (l : List Byte) : Bool :=
  isData l && (decode unmarshal l).2.isNone

/-- The discriminant of the frame of line `l`. -/
def eventOf (unmarshal : Unmarshal) (l : List Byte) : String := (decode unmarshal l).1.Event

/-- The success item carrying the decoded event of line `l`. -/
def eventItem (unmarshal : Unmarshal) (l : List Byte) : ChatMessageStreamChannelResponse :=
  { toChatMessageStreamResponse := (decode unmarshal l).1 }

/-- The line `l` does not end the loop: it is not a frame, or it is a frame
that decodes to an event other than "error" and "workflow_finished". -/
def continues (unmarshal : Unmarshal) (l : List Byte) : Bool :=
  !isData l ||
    ((decode unmarshal l).2.isNone && eventOf unmarshal l != "error"
      && eventOf unmarshal l != "workflow_finished")

/-- The decoded events of the `data:` lines among `ls`, as success items, in
order. -/
def events (unmarshal : Unmarshal) (ls : List (List Byte)) : List ChatMessageStreamChannelResponse :=
  (ls.filter isData).map (eventItem unmarshal)

/-- The effects of the iterations that read the lines `ls`, when none of them
ends the loop. -/
def lineEffects (unmarshal : Unmarshal) : List (List Byte) → List Effect
  | [] => []
  | l :: ls =>
    if isData l then
      Effect.read :: Effect.send (eventItem unmarshal l) :: lineEffects unmarshal ls
    else Effect.read :: lineEffects unmarshal ls

/-- The failure item of a failed read. -/
def readFailure (err : GoError) : ChatMessageStreamChannelResponse :=
  { Err := some (GoError.Errorf (bytesOf "error reading line: ") err) }

/-- The failure item of a failed decode. -/
def decodeFailure (err : GoError) : ChatMessageStreamChannelResponse :=
  { Err := some (GoError.Errorf (bytesOf "error unmarshalling event: ") err) }

/-- The failure item of an "error" frame with the given text. -/
def serverFailure (text : List Byte) : ChatMessageStreamChannelResponse :=
  { Err := some (GoError.New (bytesOf "error streaming event: " ++ text)) }

/-! ## A decoder for the sample streams

The statements below hold for every decoder.  The concrete runs use this one,
which agrees with `json.Unmarshal` on the frames they contain: an object whose
only member is `"event"` with an escape-free ASCII string, and an input whose
first significant byte is a letter that cannot begin a JSON value.
-/

/-- JSON white space: space, tab, line feed, carriage return. -/
def isSpace (b : Byte) : Bool := b == 32 || b == 9 || b == 10 || b == 13

/-- Reads the rest of an escape-free ASCII string literal up to its closing
quote: the content and what follows the quote. -/
def readString : List Byte → Option (List Byte × List Byte)
  | [] => none
  | b :: bs =>
    if b = 34 then some ([], bs)
    else if b = 92 || b < 32 || 127 < b then none
    else
      match readString bs with
      | some (s, rest) => some (b :: s, rest)
      | none => none

/-- Consumes the token `tok` and the white space before it. -/
def expect (tok : List Byte) (s : List Byte) : Option (List Byte) :=
  let s := s.dropWhile isSpace
  if HasPrefix s tok then some (s.drop tok.length) else none

/-- Parses an object with the single member "event" and returns its value. -/
def parseEventObject (s : List Byte) : Option String := do
  let s ← expect (bytesOf "\x7b") s
  let s ← expect (bytesOf "\"event\"") s
  let s ← expect (bytesOf ":") s
  let s ← expect (bytesOf "\"") s
  let (v, s) ← readString s
  let s ← expect (bytesOf "\x7d") s
  if s.dropWhile isSpace = [] then some (String.mk (v.map Char.ofNat)) else none

/-- The byte cannot begin a JSON value and is a letter: the decoder rejects it
with a message that quotes it. -/
def isStrayLetter (c : Byte) : Bool :=
  ((65 ≤ c && c ≤ 90) || (97 ≤ c && c ≤ 122)) && c != 116 && c != 102 && c != 110

/-- The sample decoder. -/
def sampleUnmarshal : Unmarshal := fun input =>
  match parseEventObject input with
  | some ev => ({ Event := ev }, none)
  | none =>
    match input.dropWhile isSpace with
    | [] => ({}, some (GoError.Lib (bytesOf "unexpected end of JSON input")))
    | c :: _ =>
      if isStrayLetter c then
        ({}, some (GoError.Lib
          (bytesOf "invalid character '" ++ [c] ++ bytesOf "' looking for beginning of value")))
      else ({}, some (GoError.Lib (bytesOf "input outside the sample fragment")))

/-- The cancellation signal never fires. -/
def neverDone : Nat → Bool := fun _ => false

/-- The effect is the close of the output channel. -/
def isCloseChannel : Effect → Bool
  | Effect.closeChannel => true
  | _ => false

/-- The effect is the close of the body. -/
def isCloseBody : Effect → Bool
  | Effect.closeBody => true
  | _ => false

/-- The effect is a read of the body. -/
def isRead : Effect → Bool
  | Effect.read => true
  | _ => false

/-- The channel is closed after the body in the trace: the close of the body
comes first. -/
def closesChannelAfterBody (t : List Effect) : Prop :=
  t.findIdx isCloseBody < t.findIdx isCloseChannel

/-- The rest of an iteration once the line `line` has been read, `cont` being
the result of the iterations that follow when the loop goes on. -/
def lineStep (unmarshal : Unmarshal) (line : List Byte) (cont : Option (List Effect)) :
    Option (List Effect) :=
  if !HasPrefix line (bytesOf "data:") then
    cont.map (Effect.read :: ·)
  else
    match unmarshal (TrimPrefix line (bytesOf "data:")) with
    | (_, some err) =>
      some [Effect.read,
        Effect.send { Err := some (GoError.Errorf (bytesOf "error unmarshalling event: ") err) }]
    | (resp, none) =>
      if resp.Event = "error" then
        some [Effect.read,
          Effect.send { Err := some (GoError.New (bytesOf "error streaming event: "
            ++ TrimPrefix line (bytesOf "data:"))) }]
      else if resp.Event = "workflow_finished" then
        some [Effect.read, Effect.send { toChatMessageStreamResponse := resp }]
      else
        cont.map (fun t => Effect.read :: Effect.send { toChatMessageStreamResponse := resp } :: t)

/-- The text holds the bytes `pat` as a contiguous run. -/
def carries : List Byte → List Byte → Bool
  | [], pat => HasPrefix [] pat
  | b :: text, pat => HasPrefix (b :: text) pat || carries text pat

/-- The cancellation signal is found set from check `n` on. -/
def doneFrom (n : Nat) : Nat → Bool := fun k => decide (n ≤ k)

/-- The item populates exactly one variant: it is a success item (`Err` nil)
that carries what the decoder returned without error on some text, or a
failure item (`Err` not nil) with the zero-valued payload. -/
def oneVariant (unmarshal : Unmarshal) (item : ChatMessageStreamChannelResponse) : Prop :=
  (item.Err = none ∧ ∃ text, unmarshal text = (item.toChatMessageStreamResponse, none))
    ∨ (item.Err ≠ none ∧ item.toChatMessageStreamResponse = ({} : ChatMessageStreamResponse))

/-! ## The classification of the spec -/

/-- The classes of what one iteration finds, in the order in which the spec
ranks them; `skipped` is the line without the prefix, which yields no
outcome. -/
inductive Outcome where
  | readFailed (err : GoError) : Outcome
  | skipped : Outcome
  | decodeFailed (cause : GoError) : Outcome
  | serverError (text : List Byte) : Outcome
  | terminal (resp : ChatMessageStreamResponse) : Outcome
  | normal (resp : ChatMessageStreamResponse) : Outcome

/-- Follows the words of the spec: the class of what a read returned, decided
in the fixed order read failure, then (for a line with the prefix) decode
failure, then the discriminant "error", then "workflow_finished", and a
normal event otherwise. -/
def classify (unmarshal : Unmarshal) (line : List Byte) (err : Option GoError) : Outcome :=
  match err with
  | some e => Outcome.readFailed e
  | none =>
    if HasPrefix line (bytesOf "data:") then
      match unmarshal (TrimPrefix line (bytesOf "data:")) with
      | (_, some cause) => Outcome.decodeFailed cause
      | (resp, none) =>
        if resp.Event = "error" then Outcome.serverError (TrimPrefix line (bytesOf "data:"))
        else if resp.Event = "workflow_finished" then Outcome.terminal resp
        else Outcome.normal resp
    else Outcome.skipped

/-- The item that the spec has an iteration of the given class emit, if any. -/
def Outcome.item : Outcome → Option ChatMessageStreamChannelResponse
  | Outcome.readFailed err => some (readFailure err)
  | Outcome.skipped => none
  | Outcome.decodeFailed cause => some (decodeFailure cause)
  | Outcome.serverError text => some (serverFailure text)
  | Outcome.terminal resp => some { toChatMessageStreamResponse := resp }
  | Outcome.normal resp => some { toChatMessageStreamResponse := resp }

/-- The spec has the loop terminate after an iteration of the given class. -/
def Outcome.stops : Outcome → Bool
  | Outcome.skipped => false
  | Outcome.normal _ => false
  | _ => true

/-- The effects of an iteration of the given class: the read, then the send
of its item if it has one. -/
def Outcome.effects (o : Outcome) : List Effect :=
  match o.item with
  | some item => [Effect.read, Effect.send item]
  | none => [Effect.read]

/-! ## The initiator -/

/-- The struct `ChatMessageRequest`.  Its declaration lies outside the file at
hand: `ResponseMode` is the field the initiator assigns, `others` holds the
remaining fields, of a type `F` left open. -/
structure ChatMessageRequest (F : Type) where
  ResponseMode : String
  others : F

/-- The struct `http.Response` as far as the handler uses it: the body, and
the remaining fields, of a type `M` left open. -/
structure Response (M : Type) where
  Body : Body
  info : M

/-- The HTTP client behind the field `c` of `API`, with its method
`sendRequest`, which returns a response or an error. -/
structure Client (Q M : Type) where
  sendRequest : Q → Except GoError (Response M)

/-- The receiver `API` with the collaborators the initiator calls.  The method
`createBaseRequest(ctx, method, path, body)` reads the request it is given and
returns an HTTP request or an error.  The types `C` of contexts and `Q` of
HTTP requests are left open. -/
structure API (C Q M F : Type) where
  c : Client Q M
  createBaseRequest : C → String → String → ChatMessageRequest F → Except GoError Q

/-- The method `ChatMessagesStreamRaw`.  The request is passed by pointer, so
the result holds the caller's request as the call leaves it next to the
returned pair; `http.MethodPost` is the string "POST". -/
def ChatMessagesStreamRaw {C Q M F : Type} (api : API C Q M F) (ctx : C)
    (req : ChatMessageRequest F) : ChatMessageRequest F × Except GoError (Response M) :=
  let req := { req with ResponseMode := "streaming" }
  match api.createBaseRequest ctx "POST" "/v1/chat-messages" req with
  | .error err => (req, .error err)
  | .ok httpReq => (req, api.c.sendRequest httpReq)

/-- The channel returned by `ChatMessagesStream`, known by the run of the one
task that sends on it and closes it: the handler started by the `go`
statement. -/
structure StreamChannel where
  task : Option (List Effect)

/-- The method `ChatMessagesStream`: the error of the raw call, or the channel
on which the handler has been started with the response.  The decoder and the
observations `done` of `ctx.Done()` belong to that task. -/
def ChatMessagesStream {C Q M F : Type} (api : API C Q M F) (unmarshal : Unmarshal)
    (done : Nat → Bool) (ctx : C) (req : ChatMessageRequest F) :
    ChatMessageRequest F × Except GoError StreamChannel :=
  match ChatMessagesStreamRaw api ctx req with
  | (req, .error err) => (req, .error err)
  | (req, .ok httpResp) => (req, .ok ⟨chatMessagesStreamHandle unmarshal done httpResp.Body⟩)

/-! ## Sample lines -/

/-- An SSE comment line. -/
def pingLine : List Byte := bytesOf ": ping"

/-- A frame with an ordinary event. -/
def messageLine : List Byte := bytesOf "data: \x7b\"event\":\"message\"\x7d"

/-- A frame with the terminal event. -/
def finishedLine : List Byte := bytesOf "data: \x7b\"event\":\"workflow_finished\"\x7d"

/-- A frame with the discriminant "error". -/
def errorLine : List Byte := bytesOf "data: \x7b\"event\":\"error\"\x7d"

/-- A frame that is not JSON. -/
def badLine : List Byte := bytesOf "data:x1"

/-- A frame whose discriminant differs from "error" by letter case only. -/
def shoutLine : List Byte := bytesOf "data: \x7b\"event\":\"Error\"\x7d"

/-- A line with a space before the prefix. -/
def indentedLine : List Byte := bytesOf " data: \x7b\"event\":\"message\"\x7d"

/-- A sample receiver: the HTTP request records the method, the path and the
response mode of the request, and the client answers a streaming request with
a message frame and the terminal frame, any other request with an error. -/
def sampleAPI : API Unit (String × String × String) Unit Unit where
  c := ⟨fun q =>
    if q.2.2 = "streaming" then .ok ⟨⟨joinLines [messageLine, finishedLine], GoError.EOF⟩, ()⟩
    else .error (GoError.Lib (bytesOf "unsupported response mode"))⟩
  createBaseRequest := fun _ method path req => .ok (method, path, req.ResponseMode)

/-! ## Reading lines -/

theorem splitDelim_line (l rest : List Byte) (hl : isLine l = true) :
    splitDelim newline (l ++ newline :: rest) = some (l ++ [newline], rest) := by
  induction l with
  | nil => simp [splitDelim]
  | cons b bs ih =>
    simp only [isLine, List.all_cons, Bool.and_eq_true, bne_iff_ne, ne_eq] at hl
    have hbs : isLine bs = true := by simpa [isLine] using hl.2
    simp [splitDelim, hl.1, ih hbs]

theorem splitDelim_none (l : List Byte) (hl : isLine l = true) :
    splitDelim newline l = none := by
  induction l with
  | nil => simp [splitDelim]
  | cons b bs ih =>
    simp only [isLine, List.all_cons, Bool.and_eq_true, bne_iff_ne, ne_eq] at hl
    have hbs : isLine bs = true := by simpa [isLine] using hl.2
    simp [splitDelim, hl.1, ih hbs]

theorem splitDelim_length (d : Byte) (s line rest : List Byte)
    (h : splitDelim d s = some (line, rest)) : rest.length < s.length := by
  induction s generalizing line rest with
  | nil => simp [splitDelim] at h
  | cons b bs ih =>
    simp only [splitDelim] at h
    split at h
    · simp only [Option.some.injEq, Prod.mk.injEq] at h
      rw [← h.2]; simp
    · cases hs : splitDelim d bs with
      | none => simp [hs] at h
      | some p =>
        obtain ⟨line1, rest1⟩ := p
        simp only [hs, Option.some.injEq, Prod.mk.injEq] at h
        have := ih line1 rest1 hs
        rw [← h.2]; simp; omega

theorem ReadBytes_line (l rest : List Byte) (e : GoError) (hl : isLine l = true) :
    (Reader.mk (l ++ newline :: rest) e).ReadBytes newline
      = (l ++ [newline], none, Reader.mk rest e) := by
  simp [Reader.ReadBytes, splitDelim_line l rest hl]

theorem ReadBytes_fail (l : List Byte) (e : GoError) (hl : isLine l = true) :
    (Reader.mk l e).ReadBytes newline = (l, some e, Reader.mk [] e) := by
  simp [Reader.ReadBytes, splitDelim_none l hl]

/-! ## One iteration of the loop -/

theorem streamLoop_cancel (um : Unmarshal) (done : Nat → Bool) (fuel k : Nat) (r : Reader)
    (hd : done k = true) : streamLoop um done (fuel + 1) k r = some [] := by
  simp [streamLoop, hd]

theorem streamLoop_readFail (um : Unmarshal) (done : Nat → Bool) (fuel k : Nat)
    (l : List Byte) (e : GoError) (hd : done k = false) (hl : isLine l = true) :
    streamLoop um done (fuel + 1) k ⟨l, e⟩ = some [Effect.read, Effect.send (readFailure e)] := by
  simp [streamLoop, hd, ReadBytes_fail l e hl, readFailure]

theorem streamLoop_skip (um : Unmarshal) (done : Nat → Bool) (fuel k : Nat)
    (l rest : List Byte) (e : GoError) (hd : done k = false) (hl : isLine l = true)
    (hdata : isData l = false) :
    streamLoop um done (fuel + 1) k ⟨l ++ newline :: rest, e⟩
      = (streamLoop um done fuel (k + 1) ⟨rest, e⟩).map (Effect.read :: ·) := by
  simp only [isData] at hdata
  simp [streamLoop, hd, ReadBytes_line l rest e hl, hdata]

theorem streamLoop_malformed (um : Unmarshal) (done : Nat → Bool) (fuel k : Nat)
    (l rest : List Byte) (e cause : GoError) (hd : done k = false) (hl : isLine l = true)
    (hdata : isData l = true) (hbad : (decode um l).2 = some cause) :
    streamLoop um done (fuel + 1) k ⟨l ++ newline :: rest, e⟩
      = some [Effect.read, Effect.send (decodeFailure cause)] := by
  simp only [isData] at hdata
  simp only [decode, frameText] at hbad
  cases hu : um (TrimPrefix (l ++ [newline]) (bytesOf "data:")) with
  | mk resp err =>
    rw [hu] at hbad
    simp only at hbad
    subst hbad
    simp [streamLoop, hd, ReadBytes_line l rest e hl, hdata, hu, decodeFailure]

theorem streamLoop_serverError (um : Unmarshal) (done : Nat → Bool) (fuel k : Nat)
    (l rest : List Byte) (e : GoError) (hd : done k = false) (hl : isLine l = true)
    (hdata : isData l = true) (hok : (decode um l).2 = none)
    (hev : eventOf um l = "error") :
    streamLoop um done (fuel + 1) k ⟨l ++ newline :: rest, e⟩
      = some [Effect.read, Effect.send (serverFailure (frameText l))] := by
  simp only [isData] at hdata
  simp only [eventOf, decode, frameText] at hok hev
  cases hu : um (TrimPrefix (l ++ [newline]) (bytesOf "data:")) with
  | mk resp err =>
    rw [hu] at hok hev
    simp only at hok hev
    subst hok
    simp [streamLoop, hd, ReadBytes_line l rest e hl, hdata, hu, hev, serverFailure, frameText]

theorem streamLoop_finished (um : Unmarshal) (done : Nat → Bool) (fuel k : Nat)
    (l rest : List Byte) (e : GoError) (hd : done k = false) (hl : isLine l = true)
    (hdata : isData l = true) (hok : (decode um l).2 = none)
    (hev : eventOf um l = "workflow_finished") :
    streamLoop um done (fuel + 1) k ⟨l ++ newline :: rest, e⟩
      = some [Effect.read, Effect.send (eventItem um l)] := by
  simp only [isData] at hdata
  have hitem : eventItem um l
      = { toChatMessageStreamResponse := (um (TrimPrefix (l ++ [newline]) (bytesOf "data:"))).1 } := rfl
  simp only [eventOf, decode, frameText] at hok hev
  cases hu : um (TrimPrefix (l ++ [newline]) (bytesOf "data:")) with
  | mk resp err =>
    rw [hu] at hok hev hitem
    simp only at hok hev hitem
    subst hok
    simp [streamLoop, hd, ReadBytes_line l rest e hl, hdata, hu, hev, hitem]

theorem streamLoop_event (um : Unmarshal) (done : Nat → Bool) (fuel k : Nat)
    (l rest : List Byte) (e : GoError) (hd : done k = false) (hl : isLine l = true)
    (hdata : isData l = true) (hok : (decode um l).2 = none)
    (hne : eventOf um l ≠ "error") (hnf : eventOf um l ≠ "workflow_finished") :
    streamLoop um done (fuel + 1) k ⟨l ++ newline :: rest, e⟩
      = (streamLoop um done fuel (k + 1) ⟨rest, e⟩).map
          (fun t => Effect.read :: Effect.send (eventItem um l) :: t) := by
  simp only [isData] at hdata
  have hitem : eventItem um l
      = { toChatMessageStreamResponse := (um (TrimPrefix (l ++ [newline]) (bytesOf "data:"))).1 } := rfl
  simp only [eventOf, decode, frameText] at hok hne hnf
  cases hu : um (TrimPrefix (l ++ [newline]) (bytesOf "data:")) with
  | mk resp err =>
    rw [hu] at hok hne hnf hitem
    simp only at hok hne hnf hitem
    subst hok
    simp [streamLoop, hd, ReadBytes_line l rest e hl, hdata, hu, hne, hnf, hitem]

/-! ## Fuel -/

theorem streamLoop_fuel (um : Unmarshal) (done : Nat → Bool) :
    ∀ (f1 f2 k : Nat) (r : Reader), r.rest.length < f1 → r.rest.length < f2 →
      streamLoop um done f1 k r = streamLoop um done f2 k r := by
  intro f1
  induction f1 with
  | zero => intro f2 k r h; omega
  | succ n ih =>
    intro f2 k r h1 h2
    cases f2 with
    | zero => omega
    | succ m =>
      obtain ⟨rest, e⟩ := r
      simp only [streamLoop, Reader.ReadBytes]
      cases hs : splitDelim newline rest with
      | none => simp
      | some p =>
        obtain ⟨line, rest1⟩ := p
        have hlen := splitDelim_length _ _ _ _ hs
        have hrec := ih m (k + 1) ⟨rest1, e⟩ (by simp at *; omega) (by simp at *; omega)
        simp only [hrec]

theorem streamLoop_terminates (um : Unmarshal) (done : Nat → Bool) :
    ∀ (fuel k : Nat) (r : Reader), r.rest.length < fuel →
      ∃ t, streamLoop um done fuel k r = some t := by
  intro fuel
  induction fuel with
  | zero => intro k r h; omega
  | succ n ih =>
    intro k r h
    obtain ⟨rest, e⟩ := r
    simp only [streamLoop, Reader.ReadBytes]
    cases hs : splitDelim newline rest with
    | none => by_cases hd : done k = true <;> simp [hd]
    | some p =>
      obtain ⟨line, rest1⟩ := p
      have hlen := splitDelim_length _ _ _ _ hs
      obtain ⟨t, ht⟩ := ih (k + 1) ⟨rest1, e⟩ (by simp at *; omega)
      simp only [ht]
      by_cases hd : done k = true
      · simp [hd]
      · simp only [hd]
        split
        · simp
        · split
          · simp
          · split
            · simp
            · split
              · simp
              · split <;> simp

/-! ## Runs over a sequence of lines -/

theorem length_le_joinLines (ls : List (List Byte)) : ls.length ≤ (joinLines ls).length := by
  induction ls with
  | nil => simp
  | cons l ls ih => simp [joinLines]; omega

theorem joinLines_append (xs ys : List (List Byte)) :
    joinLines (xs ++ ys) = joinLines xs ++ joinLines ys := by
  induction xs with
  | nil => simp [joinLines]
  | cons l ls ih => simp [joinLines, ih]

theorem sent_append (a b : List Effect) : sent (a ++ b) = sent a ++ sent b := by
  induction a with
  | nil => simp [sent]
  | cons x xs ih => cases x <;> simp [sent, ih]

theorem sent_lineEffects (um : Unmarshal) (ls : List (List Byte)) :
    sent (lineEffects um ls) = events um ls := by
  induction ls with
  | nil => simp [lineEffects, sent, events]
  | cons l ls ih =>
    by_cases hd : isData l = true
    · simp [lineEffects, hd, sent, ih, events, List.filter_cons]
    · simp [lineEffects, hd, sent, ih, events, List.filter_cons]

theorem events_append (um : Unmarshal) (xs ys : List (List Byte)) :
    events um (xs ++ ys) = events um xs ++ events um ys := by
  simp [events]

theorem streamLoop_lines (um : Unmarshal) (done : Nat → Bool) (rest : List Byte) (e : GoError) :
    ∀ (pre : List (List Byte)) (fuel k : Nat),
      (∀ l ∈ pre, isLine l = true ∧ continues um l = true) →
      (∀ j, j < pre.length → done (k + j) = false) →
      streamLoop um done (fuel + pre.length) k ⟨joinLines pre ++ rest, e⟩
        = (streamLoop um done fuel (k + pre.length) ⟨rest, e⟩).map (lineEffects um pre ++ ·) := by
  intro pre
  induction pre with
  | nil => intro fuel k _ _; simp [joinLines, lineEffects]
  | cons l ls ih =>
    intro fuel k hpre hdone
    have hl := hpre l (List.mem_cons_self _ _)
    have hd0 : done k = false := by simpa using hdone 0 (by simp)
    have hrec := ih fuel (k + 1) (fun x hx => hpre x (List.mem_cons_of_mem _ hx))
      (fun j hj => by
        have := hdone (j + 1) (by simpa using hj)
        rw [← this]; congr 1; omega)
    have hk : k + 1 + ls.length = k + (l :: ls).length := by simp; omega
    rw [hk] at hrec
    have hf : fuel + (l :: ls).length = fuel + ls.length + 1 := by simp; omega
    have hj : joinLines (l :: ls) ++ rest = l ++ newline :: (joinLines ls ++ rest) := by
      simp [joinLines]
    rw [hf, hj]
    by_cases hdata : isData l = true
    · have hc := hl.2
      simp only [continues, hdata, Bool.not_true, Bool.false_or, Bool.and_eq_true,
        Option.isNone_iff_eq_none, bne_iff_ne, ne_eq] at hc
      rw [streamLoop_event um done _ k l _ e hd0 hl.1 hdata hc.1.1 hc.1.2 hc.2, hrec]
      cases streamLoop um done fuel (k + (l :: ls).length) ⟨rest, e⟩ <;>
        simp [lineEffects, hdata]
    · simp only [Bool.not_eq_true] at hdata
      rw [streamLoop_skip um done _ k l _ e hd0 hl.1 hdata, hrec]
      cases streamLoop um done fuel (k + (l :: ls).length) ⟨rest, e⟩ <;>
        simp [lineEffects, hdata]

theorem handle_lines (um : Unmarshal) (done : Nat → Bool) (rest : List Byte) (e : GoError)
    (pre : List (List Byte))
    (hpre : ∀ l ∈ pre, isLine l = true ∧ continues um l = true)
    (hdone : ∀ j, j < pre.length → done j = false) :
    chatMessagesStreamHandle um done ⟨joinLines pre ++ rest, e⟩
      = (streamLoop um done (rest.length + 1) pre.length ⟨rest, e⟩).map
          (fun t => lineEffects um pre ++ t ++ [Effect.closeChannel, Effect.closeBody]) := by
  have hlen := length_le_joinLines pre
  have hf : (joinLines pre ++ rest).length + 1
      = ((joinLines pre).length - pre.length + rest.length + 1) + pre.length := by
    simp; omega
  simp only [chatMessagesStreamHandle, NewReader]
  rw [hf, streamLoop_lines um done rest e pre _ 0 hpre (fun j hj => by simpa using hdone j hj)]
  rw [streamLoop_fuel um done _ (rest.length + 1) _ ⟨rest, e⟩ (by simp; omega) (by simp),
    Nat.zero_add]
  cases streamLoop um done (rest.length + 1) pre.length ⟨rest, e⟩ <;> simp

theorem delivered_lines (um : Unmarshal) (done : Nat → Bool) (rest : List Byte) (e : GoError)
    (pre : List (List Byte))
    (hpre : ∀ l ∈ pre, isLine l = true ∧ continues um l = true)
    (hdone : ∀ j, j < pre.length → done j = false) :
    delivered um done ⟨joinLines pre ++ rest, e⟩
      = (streamLoop um done (rest.length + 1) pre.length ⟨rest, e⟩).map
          (fun t => events um pre ++ sent t) := by
  simp only [delivered, handle_lines um done rest e pre hpre hdone]
  cases streamLoop um done (rest.length + 1) pre.length ⟨rest, e⟩ <;>
    simp [sent_append, sent_lineEffects, sent]

theorem events_err (um : Unmarshal) (ls : List (List Byte)) :
    ∀ item ∈ events um ls, item.Err = none := by
  intro item hitem
  simp only [events, List.mem_map] at hitem
  obtain ⟨l, _, rfl⟩ := hitem
  rfl

theorem events_snoc (um : Unmarshal) (ls : List (List Byte)) (l : List Byte)
    (hdata : isData l = true) : events um (ls ++ [l]) = events um ls ++ [eventItem um l] := by
  simp [events, List.filter_cons, hdata]

theorem joinLines_snoc (pre : List (List Byte)) (l rest : List Byte) :
    joinLines (pre ++ [l]) ++ rest = joinLines pre ++ (l ++ newline :: rest) := by
  simp [joinLines_append, joinLines]

theorem hasPrefix_eq (s p : List Byte) (h : HasPrefix s p = true) : s = p ++ s.drop p.length := by
  induction p generalizing s with
  | nil => simp
  | cons b p ih =>
    cases s with
    | nil => simp [HasPrefix] at h
    | cons a s =>
      simp only [HasPrefix, Bool.and_eq_true, beq_iff_eq] at h
      simp only [List.length_cons, List.drop_succ_cons, List.cons_append, List.cons.injEq]
      exact ⟨h.1, ih s h.2⟩

/-! ## The shape of every run of the loop -/

theorem streamLoop_cases (um : Unmarshal) (done : Nat → Bool) (fuel k : Nat) (r : Reader)
    (t : List Effect) (h : streamLoop um done (fuel + 1) k r = some t) :
    (done k = true ∧ t = [])
    ∨ (done k = false ∧ ∃ item, t = [Effect.read, Effect.send item]
        ∧ (item.Err ≠ none ∨ (item.Err = none ∧ item.Event = "workflow_finished")))
    ∨ (done k = false ∧ ∃ t1 r1, streamLoop um done fuel (k + 1) r1 = some t1
        ∧ t = Effect.read :: t1)
    ∨ (done k = false ∧ ∃ item t1 r1, streamLoop um done fuel (k + 1) r1 = some t1
        ∧ t = Effect.read :: Effect.send item :: t1
        ∧ item.Err = none ∧ item.Event ≠ "workflow_finished") := by
  obtain ⟨rest, e⟩ := r
  simp only [streamLoop, Reader.ReadBytes] at h
  by_cases hd : done k = true
  · left
    simp only [hd, if_true, Option.some.injEq] at h
    exact ⟨hd, h.symm⟩
  · right
    simp only [Bool.not_eq_true] at hd
    simp only [hd, Bool.false_eq_true, if_false] at h
    cases hs : splitDelim newline rest with
    | none =>
      left
      simp only [hs, Option.some.injEq] at h
      exact ⟨hd, _, h.symm, Or.inl (by simp)⟩
    | some p =>
      obtain ⟨line, rest1⟩ := p
      simp only [hs] at h
      split at h
      · right; left
        obtain ⟨t1, ht1, rfl⟩ := Option.map_eq_some'.mp h
        exact ⟨hd, t1, _, ht1, rfl⟩
      · split at h
        · left
          simp only [Option.some.injEq] at h
          exact ⟨hd, _, h.symm, Or.inl (by simp)⟩
        · split at h
          · left
            simp only [Option.some.injEq] at h
            exact ⟨hd, _, h.symm, Or.inl (by simp)⟩
          · split at h
            · left
              simp only [Option.some.injEq] at h
              rename_i hwf
              exact ⟨hd, _, h.symm, Or.inr ⟨rfl, hwf⟩⟩
            · right; right
              obtain ⟨t1, ht1, rfl⟩ := Option.map_eq_some'.mp h
              rename_i hwf
              exact ⟨hd, _, t1, _, ht1, rfl, rfl, hwf⟩

theorem streamLoop_no_close (um : Unmarshal) (done : Nat → Bool) :
    ∀ (fuel k : Nat) (r : Reader) (t : List Effect), streamLoop um done fuel k r = some t →
      ∀ x ∈ t, isCloseChannel x = false ∧ isCloseBody x = false := by
  intro fuel
  induction fuel with
  | zero => intro k r t h; simp [streamLoop] at h
  | succ n ih =>
    intro k r t h
    rcases streamLoop_cases um done n k r t h with
      ⟨_, rfl⟩ | ⟨_, item, rfl, _⟩ | ⟨_, t1, r1, h1, rfl⟩ | ⟨_, item, t1, r1, h1, rfl, _⟩
    · simp
    · simp [isCloseChannel, isCloseBody]
    · intro x hx
      rcases List.mem_cons.mp hx with rfl | hx
      · simp [isCloseChannel, isCloseBody]
      · exact ih _ _ _ h1 x hx
    · intro x hx
      rcases List.mem_cons.mp hx with rfl | hx
      · simp [isCloseChannel, isCloseBody]
      · rcases List.mem_cons.mp hx with rfl | hx
        · simp [isCloseChannel, isCloseBody]
        · exact ih _ _ _ h1 x hx

theorem streamLoop_terminal_last (um : Unmarshal) :
    ∀ (fuel k : Nat) (r : Reader) (t : List Effect),
      streamLoop um neverDone fuel k r = some t →
      ∃ items last, sent t = items ++ [last]
        ∧ (∀ item ∈ items, item.Err = none ∧ item.Event ≠ "workflow_finished")
        ∧ (last.Err ≠ none ∨ (last.Err = none ∧ last.Event = "workflow_finished")) := by
  intro fuel
  induction fuel with
  | zero => intro k r t h; simp [streamLoop] at h
  | succ n ih =>
    intro k r t h
    rcases streamLoop_cases um neverDone n k r t h with
      ⟨hd, _⟩ | ⟨_, item, rfl, hitem⟩ | ⟨_, t1, r1, h1, rfl⟩ | ⟨_, item, t1, r1, h1, rfl, hi⟩
    · simp [neverDone] at hd
    · exact ⟨[], item, by simp [sent], by simp, hitem⟩
    · obtain ⟨items, last, hs, hitems, hlast⟩ := ih _ _ _ h1
      exact ⟨items, last, by simpa [sent] using hs, hitems, hlast⟩
    · obtain ⟨items, last, hs, hitems, hlast⟩ := ih _ _ _ h1
      refine ⟨item :: items, last, by simp [sent, hs], ?_, hlast⟩
      intro x hx
      rcases List.mem_cons.mp hx with rfl | hx
      · exact hi
      · exact hitems x hx

/-! ## Runs that are not cancelled -/

theorem streamLoop_line (um : Unmarshal) (done : Nat → Bool) (fuel k : Nat)
    (l rest : List Byte) (e : GoError) (hd : done k = false) (hl : isLine l = true) :
    streamLoop um done (fuel + 1) k ⟨l ++ newline :: rest, e⟩
      = lineStep um (l ++ [newline]) (streamLoop um done fuel (k + 1) ⟨rest, e⟩) := by
  simp only [streamLoop, hd, ReadBytes_line l rest e hl, lineStep]
  rfl

theorem lineStep_sent_congr (um : Unmarshal) (line : List Byte) (c1 c2 : Option (List Effect))
    (h : c1.map sent = c2.map sent) :
    (lineStep um line c1).map sent = (lineStep um line c2).map sent := by
  simp only [lineStep]
  split
  · cases c1 <;> cases c2 <;> simp_all [sent]
  · split
    · rfl
    · split
      · rfl
      · split
        · rfl
        · cases c1 <;> cases c2 <;> simp_all [sent]

theorem lineStep_sent_skip (um : Unmarshal) (l : List Byte) (c : Option (List Effect))
    (hdata : isData l = false) : (lineStep um (l ++ [newline]) c).map sent = c.map sent := by
  simp only [isData] at hdata
  simp only [lineStep, hdata]
  cases c <;> simp [sent]

theorem streamLoop_index (um : Unmarshal) :
    ∀ (fuel k1 k2 : Nat) (r : Reader),
      streamLoop um neverDone fuel k1 r = streamLoop um neverDone fuel k2 r := by
  intro fuel
  induction fuel with
  | zero => intro k1 k2 r; rfl
  | succ n ih =>
    intro k1 k2 r
    have h := fun r => ih (k1 + 1) (k2 + 1) r
    simp only [streamLoop, neverDone, h]

theorem delivered_eq (um : Unmarshal) (done : Nat → Bool) (d : List Byte) (e : GoError) :
    delivered um done ⟨d, e⟩ = (streamLoop um done (d.length + 1) 0 ⟨d, e⟩).map sent := by
  simp only [delivered, chatMessagesStreamHandle, NewReader]
  cases streamLoop um done (d.length + 1) 0 ⟨d, e⟩ <;> simp [sent_append, sent]

theorem delivered_line (um : Unmarshal) (l rest : List Byte) (e : GoError) (hl : isLine l = true) :
    delivered um neverDone ⟨l ++ newline :: rest, e⟩
      = (lineStep um (l ++ [newline]) (streamLoop um neverDone (rest.length + 1) 0 ⟨rest, e⟩)).map
          sent := by
  rw [delivered_eq, streamLoop_line um neverDone _ 0 l rest e rfl hl,
    streamLoop_index um _ (0 + 1) 0,
    streamLoop_fuel um neverDone _ (rest.length + 1) 0 ⟨rest, e⟩ (by simp; omega) (by simp)]

theorem delivered_filter (um : Unmarshal) (rest : List Byte) (e : GoError) :
    ∀ ls : List (List Byte), (∀ l ∈ ls, isLine l = true) →
      delivered um neverDone ⟨joinLines ls ++ rest, e⟩
        = delivered um neverDone ⟨joinLines (ls.filter isData) ++ rest, e⟩ := by
  intro ls
  induction ls with
  | nil => intro _; rfl
  | cons l ls ih =>
    intro hls
    have hl := hls l (List.mem_cons_self _ _)
    have hrec := ih (fun x hx => hls x (List.mem_cons_of_mem _ hx))
    rw [delivered_eq, delivered_eq] at hrec
    have hj : ∀ xs : List (List Byte),
        joinLines (l :: xs) ++ rest = l ++ newline :: (joinLines xs ++ rest) := by
      intro xs; simp [joinLines]
    by_cases hdata : isData l = true
    · rw [List.filter_cons_of_pos hdata, hj, hj, delivered_line um l _ e hl,
        delivered_line um l _ e hl]
      exact lineStep_sent_congr um _ _ _ hrec
    · simp only [Bool.not_eq_true] at hdata
      rw [List.filter_cons_of_neg (by simp [hdata]), hj, delivered_line um l _ e hl,
        lineStep_sent_skip um l _ hdata, delivered_eq]
      exact hrec

theorem countP_isRead_lineEffects (um : Unmarshal) (ls : List (List Byte)) :
    (lineEffects um ls).countP isRead = ls.length := by
  induction ls with
  | nil => rfl
  | cons l ls ih =>
    by_cases hd : isData l = true
    · simp [lineEffects, hd, List.countP_cons, isRead, ih]
    · simp [lineEffects, hd, List.countP_cons, isRead, ih]

/-! ## The items of a run -/

theorem streamLoop_succ (um : Unmarshal) (done : Nat → Bool) (fuel k : Nat)
    (rest : List Byte) (e : GoError) :
    streamLoop um done (fuel + 1) k ⟨rest, e⟩
      = if done k then some []
        else
          match splitDelim newline rest with
          | none => some [Effect.read, Effect.send (readFailure e)]
          | some (line, rest1) => lineStep um line (streamLoop um done fuel (k + 1) ⟨rest1, e⟩) := by
  simp only [streamLoop, Reader.ReadBytes, lineStep, readFailure]
  cases hs : splitDelim newline rest with
  | none => rfl
  | some p => rfl

theorem lineStep_shape (um : Unmarshal) (line : List Byte) (cont : Option (List Effect))
    (t : List Effect) (h : lineStep um line cont = some t) :
    (∃ t1, cont = some t1 ∧ t = Effect.read :: t1)
    ∨ ∃ item, oneVariant um item
        ∧ (t = [Effect.read, Effect.send item]
          ∨ ∃ t1, cont = some t1 ∧ t = Effect.read :: Effect.send item :: t1) := by
  simp only [lineStep] at h
  split at h
  · left
    obtain ⟨t1, ht1, rfl⟩ := Option.map_eq_some'.mp h
    exact ⟨t1, ht1, rfl⟩
  · right
    split at h
    · simp only [Option.some.injEq] at h
      exact ⟨_, Or.inr ⟨by simp, rfl⟩, Or.inl h.symm⟩
    · rename_i resp hu
      split at h
      · simp only [Option.some.injEq] at h
        exact ⟨_, Or.inr ⟨by simp, rfl⟩, Or.inl h.symm⟩
      · split at h
        · simp only [Option.some.injEq] at h
          exact ⟨_, Or.inl ⟨rfl, _, hu⟩, Or.inl h.symm⟩
        · obtain ⟨t1, ht1, rfl⟩ := Option.map_eq_some'.mp h
          exact ⟨_, Or.inl ⟨rfl, _, hu⟩, Or.inr ⟨t1, ht1, rfl⟩⟩

theorem streamLoop_oneVariant (um : Unmarshal) (done : Nat → Bool) :
    ∀ (fuel k : Nat) (r : Reader) (t : List Effect), streamLoop um done fuel k r = some t →
      ∀ item ∈ sent t, oneVariant um item := by
  intro fuel
  induction fuel with
  | zero => intro k r t h; simp [streamLoop] at h
  | succ n ih =>
    intro k r t h
    obtain ⟨rest, e⟩ := r
    rw [streamLoop_succ] at h
    split at h
    · simp only [Option.some.injEq] at h
      subst h
      simp [sent]
    · split at h
      · simp only [Option.some.injEq] at h
        subst h
        intro item hitem
        simp only [sent, List.mem_singleton] at hitem
        subst hitem
        exact Or.inr ⟨by simp [readFailure], rfl⟩
      · rcases lineStep_shape um _ _ t h with ⟨t1, h1, rfl⟩ | ⟨item, hgood, rfl | ⟨t1, h1, rfl⟩⟩
        · simpa [sent] using ih _ _ t1 h1
        · intro x hx
          simp only [sent, List.mem_singleton] at hx
          subst hx
          exact hgood
        · intro x hx
          simp only [sent, List.mem_cons] at hx
          rcases hx with rfl | hx
          · exact hgood
          · exact ih _ _ t1 h1 x hx

/-! ## Counting the items -/

theorem lineStep_some_skip (um : Unmarshal) (line : List Byte) (t1 : List Effect)
    (h : HasPrefix line (bytesOf "data:") = false) :
    lineStep um line (some t1) = some (Effect.read :: t1) := by
  simp [lineStep, h]

theorem lineStep_some_data (um : Unmarshal) (line : List Byte) (t1 : List Effect)
    (h : HasPrefix line (bytesOf "data:") = true) :
    (∃ item, item.Err ≠ none ∧ lineStep um line (some t1) = some [Effect.read, Effect.send item])
    ∨ (∃ item, item.Err = none
        ∧ (lineStep um line (some t1) = some [Effect.read, Effect.send item]
          ∨ lineStep um line (some t1) = some (Effect.read :: Effect.send item :: t1))) := by
  simp only [lineStep, h, Bool.not_true, Bool.false_eq_true, if_false]
  split
  · exact Or.inl ⟨_, by simp, rfl⟩
  · split
    · exact Or.inl ⟨_, by simp, rfl⟩
    · split
      · exact Or.inr ⟨_, rfl, Or.inl rfl⟩
      · exact Or.inr ⟨_, rfl, Or.inr rfl⟩

theorem streamLoop_count (um : Unmarshal) (done : Nat → Bool) (tl : List Byte) (e : GoError)
    (htl : isLine tl = true) :
    ∀ (ls : List (List Byte)) (fuel k : Nat), (∀ l ∈ ls, isLine l = true) →
      (joinLines ls ++ tl).length < fuel →
      ∃ t, streamLoop um done fuel k ⟨joinLines ls ++ tl, e⟩ = some t
        ∧ (sent t).length ≤ (ls.filter isData).length + 1
        ∧ ((sent t).length = (ls.filter isData).length + 1
            → (sent t).getLast? = some (readFailure e)) := by
  intro ls
  induction ls with
  | nil =>
    intro fuel k _ hfuel
    obtain ⟨f, rfl⟩ : ∃ f, fuel = f + 1 := ⟨fuel - 1, by omega⟩
    by_cases hd : done k = true
    · exact ⟨[], streamLoop_cancel um done f k _ hd, by simp [sent], by simp [sent]⟩
    · simp only [Bool.not_eq_true] at hd
      refine ⟨[Effect.read, Effect.send (readFailure e)], ?_, ?_, ?_⟩
      · simpa [joinLines] using streamLoop_readFail um done f k tl e hd htl
      · simp [sent]
      · simp [sent]
  | cons l ls ih =>
    intro fuel k hls hfuel
    obtain ⟨f, rfl⟩ : ∃ f, fuel = f + 1 := ⟨fuel - 1, by omega⟩
    have hl := hls l (List.mem_cons_self _ _)
    have hj : joinLines (l :: ls) ++ tl = l ++ newline :: (joinLines ls ++ tl) := by
      simp [joinLines]
    by_cases hd : done k = true
    · exact ⟨[], streamLoop_cancel um done f k _ hd, by simp [sent], by simp [sent]⟩
    · simp only [Bool.not_eq_true] at hd
      obtain ⟨t1, ht1, hle, hlast⟩ := ih f (k + 1)
        (fun x hx => hls x (List.mem_cons_of_mem _ hx))
        (by rw [hj] at hfuel; simp at hfuel ⊢; omega)
      rw [hj, streamLoop_line um done f k l _ e hd hl, ht1]
      by_cases hdata : isData l = true
      · rw [List.filter_cons_of_pos hdata]
        rcases lineStep_some_data um (l ++ [newline]) t1 hdata with
          ⟨item, _, h⟩ | ⟨item, _, h | h⟩
        · exact ⟨_, h, by simp [sent], by simp [sent]⟩
        · exact ⟨_, h, by simp [sent], by simp [sent]⟩
        · refine ⟨_, h, by simp [sent]; omega, ?_⟩
          intro hlen
          simp only [sent, List.length_cons] at hlen
          have h1 := hlast (by omega)
          cases hs : sent t1 with
          | nil => simp [hs] at h1
          | cons x xs =>
            simp only [sent, hs] at h1 ⊢
            simpa using h1
      · simp only [Bool.not_eq_true] at hdata
        rw [List.filter_cons_of_neg (by simp [hdata])]
        exact ⟨_, lineStep_some_skip um _ t1 hdata, by simpa [sent] using hle,
          by simpa [sent] using hlast⟩

theorem streamLoop_classify (um : Unmarshal) (done : Nat → Bool) (fuel k : Nat) (r : Reader) :
    streamLoop um done (fuel + 1) k r
      = if done k then some []
        else if (classify um (r.ReadBytes newline).1 (r.ReadBytes newline).2.1).stops then
          some (classify um (r.ReadBytes newline).1 (r.ReadBytes newline).2.1).effects
        else
          (streamLoop um done fuel (k + 1) (r.ReadBytes newline).2.2).map
            ((classify um (r.ReadBytes newline).1 (r.ReadBytes newline).2.1).effects ++ ·) := by
  obtain ⟨rest, e⟩ := r
  rw [streamLoop_succ]
  by_cases hd : done k = true
  · simp [hd]
  · simp only [hd, Bool.false_eq_true, if_false, Reader.ReadBytes]
    cases hs : splitDelim newline rest with
    | none => simp [classify, Outcome.stops, Outcome.effects, Outcome.item]
    | some p =>
      obtain ⟨line, rest1⟩ := p
      simp only [lineStep, classify]
      by_cases hp : HasPrefix line (bytesOf "data:") = true
      · simp only [hp, Bool.not_true, Bool.false_eq_true, if_false, if_true]
        cases hu : um (TrimPrefix line (bytesOf "data:")) with
        | mk resp err =>
          cases err with
          | some cause => simp [Outcome.stops, Outcome.effects, Outcome.item, decodeFailure]
          | none =>
            by_cases he : resp.Event = "error"
            · simp [he, Outcome.stops, Outcome.effects, Outcome.item, serverFailure]
            · by_cases hw : resp.Event = "workflow_finished"
              · simp [hw, Outcome.stops, Outcome.effects, Outcome.item]
              · simp only [he, hw, if_false, Outcome.stops, Outcome.effects, Outcome.item,
                  Bool.false_eq_true]
                cases streamLoop um done fuel (k + 1) ⟨rest1, e⟩ <;> simp
      · simp only [Bool.not_eq_true] at hp
        simp only [hp, Bool.not_false, if_true, Bool.false_eq_true, if_false, Outcome.stops,
          Outcome.effects, Outcome.item]
        cases streamLoop um done fuel (k + 1) ⟨rest1, e⟩ <;> simp

theorem classify_one_item (um : Unmarshal) (line : List Byte)
    (hp : HasPrefix line (bytesOf "data:") = true) :
    (sent (classify um line none).effects).length = 1 := by
  simp only [classify, hp, if_true]
  split
  · simp [Outcome.effects, Outcome.item, sent]
  · split
    · simp [Outcome.effects, Outcome.item, sent]
    · split <;> simp [Outcome.effects, Outcome.item, sent]

theorem effects_at_most_one (o : Outcome) : (sent o.effects).length ≤ 1 := by
  cases o <;> simp [Outcome.effects, Outcome.item, sent]

/-! ## The prefix and the end of a run -/

theorem hasPrefix_iff_take (p s : List Byte) : HasPrefix s p = true ↔ s.take p.length = p := by
  induction p generalizing s with
  | nil => simp [HasPrefix]
  | cons b p ih =>
    cases s with
    | nil => simp [HasPrefix]
    | cons a s =>
      simp only [HasPrefix, Bool.and_eq_true, beq_iff_eq, List.length_cons, List.take_succ_cons,
        List.cons.injEq, ih]

theorem bytesOf_data : bytesOf "data:" = [100, 97, 116, 97, 58] := by decide

theorem trimPrefix_append (p x : List Byte) : TrimPrefix (p ++ x) p = x := by
  have h : HasPrefix (p ++ x) p = true := by
    rw [hasPrefix_iff_take]; simp
  simp [TrimPrefix, h]

theorem lineStep_stop (um : Unmarshal) (l : List Byte) (c1 c2 : Option (List Effect))
    (hstop : continues um l = false) :
    lineStep um (l ++ [newline]) c1 = lineStep um (l ++ [newline]) c2 := by
  simp only [continues, isData, decode, eventOf, frameText] at hstop
  simp only [lineStep]
  by_cases hp : HasPrefix (l ++ [newline]) (bytesOf "data:") = true
  · simp only [hp, Bool.not_true, Bool.false_eq_true, if_false]
    cases hu : um (TrimPrefix (l ++ [newline]) (bytesOf "data:")) with
    | mk resp err =>
      cases err with
      | some cause => rfl
      | none =>
        by_cases he : resp.Event = "error"
        · simp [he]
        · by_cases hw : resp.Event = "workflow_finished"
          · simp [hw]
          · simp [hp, hu, he, hw] at hstop
  · simp only [Bool.not_eq_true] at hp
    simp [hp] at hstop

theorem streamLoop_cut (um : Unmarshal) (done : Nat → Bool) (term a b : List Byte) (e : GoError)
    (hterm : isLine term = true) (hstop : continues um term = false) :
    ∀ (pre : List (List Byte)) (f1 f2 k : Nat), (∀ l ∈ pre, isLine l = true) →
      (joinLines (pre ++ [term]) ++ a).length < f1 →
      (joinLines (pre ++ [term]) ++ b).length < f2 →
      streamLoop um done f1 k ⟨joinLines (pre ++ [term]) ++ a, e⟩
        = streamLoop um done f2 k ⟨joinLines (pre ++ [term]) ++ b, e⟩ := by
  intro pre
  induction pre with
  | nil =>
    intro f1 f2 k _ h1 h2
    obtain ⟨g1, rfl⟩ : ∃ g, f1 = g + 1 := ⟨f1 - 1, by omega⟩
    obtain ⟨g2, rfl⟩ : ∃ g, f2 = g + 1 := ⟨f2 - 1, by omega⟩
    have hj : ∀ x : List Byte, joinLines ([] ++ [term]) ++ x = term ++ newline :: x := by
      intro x; simp [joinLines]
    by_cases hd : done k = true
    · rw [streamLoop_cancel um done g1 k _ hd, streamLoop_cancel um done g2 k _ hd]
    · simp only [Bool.not_eq_true] at hd
      rw [hj, hj, streamLoop_line um done g1 k term a e hd hterm,
        streamLoop_line um done g2 k term b e hd hterm]
      exact lineStep_stop um term _ _ hstop
  | cons l ls ih =>
    intro f1 f2 k hls h1 h2
    obtain ⟨g1, rfl⟩ : ∃ g, f1 = g + 1 := ⟨f1 - 1, by omega⟩
    obtain ⟨g2, rfl⟩ : ∃ g, f2 = g + 1 := ⟨f2 - 1, by omega⟩
    have hl := hls l (List.mem_cons_self _ _)
    have hj : ∀ x : List Byte, joinLines (l :: ls ++ [term]) ++ x
        = l ++ newline :: (joinLines (ls ++ [term]) ++ x) := by
      intro x; simp [joinLines]
    by_cases hd : done k = true
    · rw [streamLoop_cancel um done g1 k _ hd, streamLoop_cancel um done g2 k _ hd]
    · simp only [Bool.not_eq_true] at hd
      rw [hj] at h1 h2
      rw [hj, hj, streamLoop_line um done g1 k l _ e hd hl,
        streamLoop_line um done g2 k l _ e hd hl,
        ih g1 g2 (k + 1) (fun x hx => hls x (List.mem_cons_of_mem _ hx))
          (by simp at h1 ⊢; omega) (by simp at h2 ⊢; omega)]

/-! ## The claims -/

/-- C1: when the stream begins with complete lines none of which ends the loop
(every `data:` line among them decodes and is neither "error" nor
"workflow_finished"), followed by a `data:` line that decodes to
"workflow_finished", and the signal never fires, the handler delivers exactly
the decoded events of those `data:` lines, in order, the "workflow_finished"
event last, every item with `Err = nil`. -/
theorem delivers_events_until_workflow_finished (um : Unmarshal) (done : Nat → Bool)
    (pre : List (List Byte)) (fin rest : List Byte) (e : GoError)
    (hdone : ∀ k, done k = false)
    (hpre : ∀ l ∈ pre, isLine l = true ∧ continues um l = true)
    (hfin : isLine fin = true) (hdata : isData fin = true)
    (hok : (decode um fin).2 = none) (hev : eventOf um fin = "workflow_finished") :
    delivered um done ⟨joinLines (pre ++ [fin]) ++ rest, e⟩ = some (events um (pre ++ [fin]))
      ∧ (∀ item ∈ events um (pre ++ [fin]), item.Err = none)
      ∧ (events um (pre ++ [fin])).getLast? = some (eventItem um fin)
      ∧ (eventItem um fin).Event = "workflow_finished" := by
  refine ⟨?_, events_err um _, ?_, hev⟩
  · rw [joinLines_snoc, delivered_lines um done _ e pre hpre (fun j _ => hdone j),
      streamLoop_finished um done _ _ fin rest e (hdone _) hfin hdata hok hev,
      events_snoc um pre fin hdata]
    simp [sent]
  · rw [events_snoc um pre fin hdata]; simp

/-- C1 at a sample stream: a comment, a message frame, a blank line and the
terminal frame, followed by bytes that are never read. -/
theorem delivers_events_until_workflow_finished_witness :
    delivered sampleUnmarshal neverDone
        ⟨joinLines ([pingLine, messageLine, []] ++ [finishedLine]) ++ messageLine, GoError.EOF⟩
      = some [{ Event := "message" }, { Event := "workflow_finished" }] :=
  (delivers_events_until_workflow_finished sampleUnmarshal neverDone [pingLine, messageLine, []]
    finishedLine messageLine GoError.EOF (fun _ => rfl) (by decide) (by decide) (by decide)
    (by decide) (by decide)).1

/-- C3: when the stream consists of complete lines none of which ends the loop
followed by bytes without a newline (possibly none), and the signal does not
fire before the reads, the handler delivers the decoded events of the `data:`
lines in order and then one failure item that wraps the read error of the
body (`io.EOF` at the end of the stream); the last item is never a success. -/
theorem end_of_stream_is_read_failure (um : Unmarshal) (done : Nat → Bool)
    (pre : List (List Byte)) (tl : List Byte) (e : GoError)
    (hdone : ∀ j, j ≤ pre.length → done j = false)
    (hpre : ∀ l ∈ pre, isLine l = true ∧ continues um l = true)
    (htl : isLine tl = true) :
    delivered um done ⟨joinLines pre ++ tl, e⟩ = some (events um pre ++ [readFailure e])
      ∧ (∀ item ∈ events um pre, item.Err = none)
      ∧ (readFailure e).Err = some (GoError.Errorf (bytesOf "error reading line: ") e)
      ∧ (readFailure e).Err.bind GoError.Unwrap = some e := by
  refine ⟨?_, events_err um _, rfl, rfl⟩
  rw [delivered_lines um done _ e pre hpre (fun j hj => hdone j (Nat.le_of_lt hj)),
    streamLoop_readFail um done _ _ tl e (hdone _ (Nat.le_refl _)) htl]
  simp [sent]

/-- C3 at a sample stream: a comment and a message frame, then an unfinished
line, then the end of the stream. -/
theorem end_of_stream_is_read_failure_witness :
    delivered sampleUnmarshal neverDone
        ⟨joinLines [pingLine, messageLine] ++ finishedLine, GoError.EOF⟩
      = some [{ Event := "message" },
          { Err := some (GoError.Errorf (bytesOf "error reading line: ") GoError.EOF) }] :=
  (end_of_stream_is_read_failure sampleUnmarshal neverDone [pingLine, messageLine]
    finishedLine GoError.EOF (fun _ _ => rfl) (by decide) (by decide)).1

/-- C4: when the first line that ends the loop is a `data:` line on which the
decoder fails, and the signal does not fire before it is read, the handler
delivers the decoded events of the earlier `data:` lines in order and then
one failure item; what follows the malformed line has no influence. -/
theorem malformed_frame_is_decode_failure (um : Unmarshal) (done : Nat → Bool)
    (pre : List (List Byte)) (bad rest : List Byte) (e cause : GoError)
    (hdone : ∀ j, j ≤ pre.length → done j = false)
    (hpre : ∀ l ∈ pre, isLine l = true ∧ continues um l = true)
    (hbad : isLine bad = true) (hdata : isData bad = true)
    (hfail : (decode um bad).2 = some cause) :
    delivered um done ⟨joinLines (pre ++ [bad]) ++ rest, e⟩
        = some (events um pre ++ [decodeFailure cause])
      ∧ (∀ item ∈ events um pre, item.Err = none)
      ∧ (decodeFailure cause).Err ≠ none := by
  refine ⟨?_, events_err um _, by simp [decodeFailure]⟩
  rw [joinLines_snoc, delivered_lines um done _ e pre hpre (fun j hj => hdone j (Nat.le_of_lt hj)),
    streamLoop_malformed um done _ _ bad rest e cause (hdone _ (Nat.le_refl _)) hbad hdata hfail]
  simp [sent]

/-- C4 at a sample stream: a message frame, a frame that is not JSON, the
terminal frame. -/
theorem malformed_frame_is_decode_failure_witness :
    delivered sampleUnmarshal neverDone
        ⟨joinLines ([messageLine] ++ [badLine]) ++ joinLines [finishedLine], GoError.EOF⟩
      = some [{ Event := "message" },
          { Err := some (GoError.Errorf (bytesOf "error unmarshalling event: ")
              (GoError.Lib (bytesOf "invalid character 'x' looking for beginning of value"))) }] :=
  (malformed_frame_is_decode_failure sampleUnmarshal neverDone [messageLine] badLine
    (joinLines [finishedLine]) GoError.EOF
    (GoError.Lib (bytesOf "invalid character 'x' looking for beginning of value"))
    (fun _ _ => rfl) (by decide) (by decide) (by decide) (by decide)).1

/-- C5: when the first line that ends the loop is a `data:` line that decodes
to an event with discriminant "error", and the signal does not fire before it
is read, the handler delivers the decoded events of the earlier `data:` lines
in order and then one failure item, whose error text is
"error streaming event: " followed by the line as it was read, less its
`data:` prefix; the frame itself is not delivered as a success item. -/
theorem error_frame_is_server_failure (um : Unmarshal) (done : Nat → Bool)
    (pre : List (List Byte)) (l rest : List Byte) (e : GoError)
    (hdone : ∀ j, j ≤ pre.length → done j = false)
    (hpre : ∀ l ∈ pre, isLine l = true ∧ continues um l = true)
    (hl : isLine l = true) (hdata : isData l = true)
    (hok : (decode um l).2 = none) (hev : eventOf um l = "error") :
    delivered um done ⟨joinLines (pre ++ [l]) ++ rest, e⟩
        = some (events um pre ++ [serverFailure (frameText l)])
      ∧ (∀ item ∈ events um pre, item.Err = none ∧ item.Event ≠ "error")
      ∧ (∃ err, (serverFailure (frameText l)).Err = some err
          ∧ err.Error = bytesOf "error streaming event: " ++ frameText l)
      ∧ l ++ [newline] = bytesOf "data:" ++ frameText l := by
  refine ⟨?_, ?_, ⟨_, rfl, rfl⟩, ?_⟩
  · rw [joinLines_snoc, delivered_lines um done _ e pre hpre (fun j hj => hdone j (Nat.le_of_lt hj)),
      streamLoop_serverError um done _ _ l rest e (hdone _ (Nat.le_refl _)) hl hdata hok hev]
    simp [sent]
  · intro item hitem
    refine ⟨events_err um pre item hitem, ?_⟩
    simp only [events, List.mem_map, List.mem_filter] at hitem
    obtain ⟨x, ⟨hx, hxd⟩, rfl⟩ := hitem
    have hc := (hpre x hx).2
    simp only [continues, hxd, Bool.not_true, Bool.false_or, Bool.and_eq_true,
      Option.isNone_iff_eq_none, bne_iff_ne, ne_eq] at hc
    exact hc.1.2
  · have hp : HasPrefix (l ++ [newline]) (bytesOf "data:") = true := hdata
    have := hasPrefix_eq _ _ hp
    simp only [frameText, TrimPrefix, hp, if_true]
    exact this

/-- C5 at a sample stream: a message frame, a comment, an "error" frame, the
terminal frame. -/
theorem error_frame_is_server_failure_witness :
    delivered sampleUnmarshal neverDone
        ⟨joinLines ([messageLine, pingLine] ++ [errorLine]) ++ joinLines [finishedLine],
          GoError.EOF⟩
      = some [{ Event := "message" },
          { Err := some (GoError.New
              (bytesOf "error streaming event:  \x7b\"event\":\"error\"\x7d\n")) }] :=
  (error_frame_is_server_failure sampleUnmarshal neverDone [messageLine, pingLine] errorLine
    (joinLines [finishedLine]) GoError.EOF
    (fun _ _ => rfl) (by decide) (by decide) (by decide) (by decide) (by decide)).1

/-- C2: when the signal never fires, the sequence delivered for any finite
body is not empty, its last item is a failure item or a success item with
event "workflow_finished", and every item before the last is a success item
with another event. -/
theorem exactly_one_terminal_item_last (um : Unmarshal) (body : Body) :
    ∃ items last, delivered um neverDone body = some (items ++ [last])
      ∧ (∀ item ∈ items, item.Err = none ∧ item.Event ≠ "workflow_finished")
      ∧ (last.Err ≠ none ∨ (last.Err = none ∧ last.Event = "workflow_finished")) := by
  obtain ⟨d, e⟩ := body
  obtain ⟨t, ht⟩ := streamLoop_terminates um neverDone (d.length + 1) 0 ⟨d, e⟩ (by simp)
  obtain ⟨items, last, hs, hitems, hlast⟩ := streamLoop_terminal_last um _ _ _ t ht
  exact ⟨items, last, by rw [delivered_eq, ht]; simp [hs], hitems, hlast⟩

/-- C6: when the signal never fires, two streams that begin with complete
lines and continue with the same bytes deliver the same sequence as soon as
their lines agree once the lines that do not start with `data:` are removed:
such lines can be inserted or deleted anywhere among the lines at will. -/
theorem non_data_lines_are_ignored (um : Unmarshal) (ls1 ls2 : List (List Byte))
    (rest : List Byte) (e : GoError)
    (h1 : ∀ l ∈ ls1, isLine l = true) (h2 : ∀ l ∈ ls2, isLine l = true)
    (hsame : ls1.filter isData = ls2.filter isData) :
    delivered um neverDone ⟨joinLines ls1 ++ rest, e⟩
      = delivered um neverDone ⟨joinLines ls2 ++ rest, e⟩ := by
  rw [delivered_filter um rest e ls1 h1, delivered_filter um rest e ls2 h2, hsame]

/-- C6 at two sample streams that differ by a comment and a blank line. -/
theorem non_data_lines_are_ignored_witness :
    delivered sampleUnmarshal neverDone
        ⟨joinLines [pingLine, messageLine, [], finishedLine] ++ [], GoError.EOF⟩
      = delivered sampleUnmarshal neverDone
        ⟨joinLines [messageLine, finishedLine] ++ [], GoError.EOF⟩ :=
  non_data_lines_are_ignored sampleUnmarshal [pingLine, messageLine, [], finishedLine]
    [messageLine, finishedLine] [] GoError.EOF (by decide) (by decide) (by decide)

/-- C7: when the signal is found set by the check that follows the reads of
the lines `pre`, none of which ends the loop, and by no earlier check, the
run consists of the effects of those lines and the two closes: the delivered
items are the events of `pre`, the reads are those of `pre`, nothing is read
or sent after the signal, and with `pre` empty the run is just the two
closes. -/
theorem cancellation_produces_no_outcome (um : Unmarshal) (done : Nat → Bool)
    (pre : List (List Byte)) (rest : List Byte) (e : GoError)
    (hpre : ∀ l ∈ pre, isLine l = true ∧ continues um l = true)
    (hnot : ∀ j, j < pre.length → done j = false)
    (hdone : done pre.length = true) :
    chatMessagesStreamHandle um done ⟨joinLines pre ++ rest, e⟩
        = some (lineEffects um pre ++ [Effect.closeChannel, Effect.closeBody])
      ∧ delivered um done ⟨joinLines pre ++ rest, e⟩ = some (events um pre)
      ∧ (lineEffects um pre).countP isRead = pre.length := by
  refine ⟨?_, ?_, countP_isRead_lineEffects um pre⟩
  · rw [handle_lines um done rest e pre hpre hnot, streamLoop_cancel um done _ _ _ hdone]
    simp
  · rw [delivered_lines um done rest e pre hpre hnot, streamLoop_cancel um done _ _ _ hdone]
    simp [sent]

/-- C7 at a sample stream: the signal is found set by the second check, after
the message frame has been read and before the terminal frame is. -/
theorem cancellation_produces_no_outcome_witness :
    chatMessagesStreamHandle sampleUnmarshal (doneFrom 1)
        ⟨joinLines [messageLine] ++ joinLines [finishedLine], GoError.EOF⟩
      = some [Effect.read, Effect.send { Event := "message" },
          Effect.closeChannel, Effect.closeBody] :=
  (cancellation_produces_no_outcome sampleUnmarshal (doneFrom 1) [messageLine]
    (joinLines [finishedLine]) GoError.EOF (by decide) (by decide) (by decide)).1

/-- C8: every run of the handler ends, and its trace holds the close of the
body exactly once, the close of the channel exactly once, and no send after
the close of the channel. -/
theorem closes_exactly_once (um : Unmarshal) (done : Nat → Bool) (body : Body) :
    ∃ trace, chatMessagesStreamHandle um done body = some trace
      ∧ trace.countP isCloseBody = 1
      ∧ trace.countP isCloseChannel = 1
      ∧ ∀ a b, trace = a ++ Effect.closeChannel :: b → sent b = [] := by
  obtain ⟨d, e⟩ := body
  obtain ⟨t, ht⟩ := streamLoop_terminates um done (d.length + 1) 0 ⟨d, e⟩ (by simp)
  have hno := streamLoop_no_close um done _ _ _ t ht
  refine ⟨t ++ [Effect.closeChannel, Effect.closeBody], by
    simp [chatMessagesStreamHandle, NewReader, ht], ?_, ?_, ?_⟩
  · have h0 : t.countP isCloseBody = 0 :=
      List.countP_eq_zero.mpr (fun x hx => by simp [(hno x hx).2])
    simp [List.countP_append, h0, List.countP_cons, isCloseBody]
  · have h0 : t.countP isCloseChannel = 0 :=
      List.countP_eq_zero.mpr (fun x hx => by simp [(hno x hx).1])
    simp [List.countP_append, h0, List.countP_cons, isCloseChannel]
  · intro a b hab
    rcases List.append_eq_append_iff.mp hab with ⟨c, rfl, hc⟩ | ⟨c, rfl, hc⟩
    · cases c with
      | nil =>
        simp only [List.nil_append, List.cons.injEq, true_and] at hc
        subst hc; rfl
      | cons x c =>
        simp only [List.cons_append, List.cons.injEq] at hc
        cases c with
        | nil =>
          simp only [List.nil_append] at hc
          exact absurd hc.2 (by simp)
        | cons y c =>
          have := hc.2
          simp at this
    · cases c with
      | nil =>
        simp only [List.nil_append, List.cons.injEq, true_and] at hc
        subst hc; rfl
      | cons x c =>
        simp only [List.cons_append, List.cons.injEq] at hc
        have hx := (hno x (by simp)).1
        rw [← hc.1] at hx
        simp [isCloseChannel] at hx

/-- C9, as stated, fails: on the stream of one "workflow_finished" frame the
channel is closed before the body, not after it. -/
theorem channel_closed_before_body :
    chatMessagesStreamHandle sampleUnmarshal neverDone ⟨joinLines [finishedLine], GoError.EOF⟩
        = some [Effect.read, Effect.send { Event := "workflow_finished" },
            Effect.closeChannel, Effect.closeBody]
      ∧ ¬ closesChannelAfterBody [Effect.read, Effect.send { Event := "workflow_finished" },
            Effect.closeChannel, Effect.closeBody] := by
  refine ⟨rfl, ?_⟩
  unfold closesChannelAfterBody
  decide

/-- C9, amended: every run ends with the close of the channel followed by the
close of the body, and everything before them is a read or a send; the
channel is closed after the final outcome has been delivered and just before
the body is closed. -/
theorem channel_closed_after_sends_then_body (um : Unmarshal) (done : Nat → Bool) (body : Body) :
    ∃ t, chatMessagesStreamHandle um done body
        = some (t ++ [Effect.closeChannel, Effect.closeBody])
      ∧ ∀ x ∈ t, isCloseChannel x = false ∧ isCloseBody x = false := by
  obtain ⟨d, e⟩ := body
  obtain ⟨t, ht⟩ := streamLoop_terminates um done (d.length + 1) 0 ⟨d, e⟩ (by simp)
  exact ⟨t, by simp [chatMessagesStreamHandle, NewReader, ht], streamLoop_no_close um done _ _ _ t ht⟩

/-- C10, as stated, fails: for the stream of the single line `data:x1` the
failure item wraps the decoder's error, but its text holds neither the line
nor the bytes that failed to decode. -/
theorem decode_failure_lacks_raw_line :
    delivered sampleUnmarshal neverDone ⟨joinLines [badLine], GoError.EOF⟩
        = some [{ Err := some (GoError.Errorf (bytesOf "error unmarshalling event: ")
            (GoError.Lib (bytesOf "invalid character 'x' looking for beginning of value"))) }]
      ∧ carries (GoError.Errorf (bytesOf "error unmarshalling event: ") (GoError.Lib
            (bytesOf "invalid character 'x' looking for beginning of value"))).Error
          badLine = false
      ∧ carries (GoError.Errorf (bytesOf "error unmarshalling event: ") (GoError.Lib
            (bytesOf "invalid character 'x' looking for beginning of value"))).Error
          (frameText badLine) = false :=
  ⟨rfl, rfl, rfl⟩

/-- C10, amended: when the first line that ends the loop is a `data:` line on
which the decoder fails with error `cause`, the last item delivered is the
failure item built from `cause` alone: zero-valued payload, an error that
unwraps to `cause` and whose text is "error unmarshalling event: " followed
by the text of `cause`. -/
theorem decode_failure_wraps_cause (um : Unmarshal) (done : Nat → Bool)
    (pre : List (List Byte)) (bad rest : List Byte) (e cause : GoError)
    (hdone : ∀ j, j ≤ pre.length → done j = false)
    (hpre : ∀ l ∈ pre, isLine l = true ∧ continues um l = true)
    (hbad : isLine bad = true) (hdata : isData bad = true)
    (hfail : (decode um bad).2 = some cause) :
    ∃ items err, delivered um done ⟨joinLines (pre ++ [bad]) ++ rest, e⟩
        = some (items ++ [{ Err := some err }])
      ∧ err = GoError.Errorf (bytesOf "error unmarshalling event: ") cause
      ∧ err.Unwrap = some cause
      ∧ err.Error = bytesOf "error unmarshalling event: " ++ cause.Error := by
  refine ⟨events um pre, _, ?_, rfl, rfl, rfl⟩
  rw [joinLines_snoc, delivered_lines um done _ e pre hpre (fun j hj => hdone j (Nat.le_of_lt hj)),
    streamLoop_malformed um done _ _ bad rest e cause (hdone _ (Nat.le_refl _)) hbad hdata hfail]
  simp [sent, decodeFailure]

/-- C10, amended, at a sample stream: a message frame, a frame that is not
JSON, the terminal frame. -/
theorem decode_failure_wraps_cause_witness :
    ∃ items err, delivered sampleUnmarshal neverDone
        ⟨joinLines ([messageLine] ++ [badLine]) ++ joinLines [finishedLine], GoError.EOF⟩
        = some (items ++ [{ Err := some err }])
      ∧ err = GoError.Errorf (bytesOf "error unmarshalling event: ")
          (GoError.Lib (bytesOf "invalid character 'x' looking for beginning of value"))
      ∧ err.Unwrap
          = some (GoError.Lib (bytesOf "invalid character 'x' looking for beginning of value"))
      ∧ err.Error = bytesOf "error unmarshalling event: "
          ++ (GoError.Lib (bytesOf "invalid character 'x' looking for beginning of value")).Error :=
  decode_failure_wraps_cause sampleUnmarshal neverDone [messageLine] badLine
    (joinLines [finishedLine]) GoError.EOF
    (GoError.Lib (bytesOf "invalid character 'x' looking for beginning of value"))
    (fun _ _ => rfl) (by decide) (by decide) (by decide) (by decide)

/-- C11: every item delivered by a run populates exactly one variant. It is
either a success item, with `Err` nil and the payload the decoder returned
without error on some text, or a failure item, with `Err` not nil and the
zero-valued payload: nothing that a failed decode filled in, and nothing of
an "error" frame, is on it. -/
theorem item_populates_one_variant (um : Unmarshal) (done : Nat → Bool) (body : Body) :
    ∃ items, delivered um done body = some items
      ∧ ∀ item ∈ items,
        (item.Err = none ∧ ∃ text, um text = (item.toChatMessageStreamResponse, none))
        ∨ (item.Err ≠ none
          ∧ item.toChatMessageStreamResponse = ({} : ChatMessageStreamResponse)) := by
  obtain ⟨d, e⟩ := body
  obtain ⟨t, ht⟩ := streamLoop_terminates um done (d.length + 1) 0 ⟨d, e⟩ (by simp)
  refine ⟨sent t, by rw [delivered_eq, ht]; rfl, ?_⟩
  exact streamLoop_oneVariant um done _ _ _ t ht

/-- C12: whatever `ResponseMode` the request holds on entry, the request that
`ChatMessagesStreamRaw` hands to `createBaseRequest`, and the caller's request
after the call, is the request with `ResponseMode` set to "streaming" and
every other field as it was; the result is what the collaborators return on
that request. -/
theorem raw_forces_streaming_mode {C Q M F : Type} (api : API C Q M F) (ctx : C)
    (req : ChatMessageRequest F) :
    (ChatMessagesStreamRaw api ctx req).1 = { ResponseMode := "streaming", others := req.others }
      ∧ (ChatMessagesStreamRaw api ctx req).2
          = (match api.createBaseRequest ctx "POST" "/v1/chat-messages"
                { ResponseMode := "streaming", others := req.others } with
              | .error err => .error err
              | .ok httpReq => api.c.sendRequest httpReq)
      ∧ ∀ mode, ChatMessagesStreamRaw api ctx { req with ResponseMode := mode }
          = ChatMessagesStreamRaw api ctx req := by
  refine ⟨?_, ?_, fun mode => rfl⟩
  · simp only [ChatMessagesStreamRaw]
    split <;> rfl
  · simp only [ChatMessagesStreamRaw]
    split <;> simp_all

/-- C13: `ChatMessagesStream` returns an error exactly when the raw call does,
that is when `createBaseRequest` fails or `sendRequest` fails, and it is that
same error: no channel is returned and no handler is started.  Otherwise it
returns the channel on which the handler runs over the body of the response. -/
theorem stream_fails_exactly_when_initiator_fails {C Q M F : Type} (api : API C Q M F)
    (um : Unmarshal) (done : Nat → Bool) (ctx : C) (req : ChatMessageRequest F) :
    (∀ err, (ChatMessagesStream api um done ctx req).2 = .error err
        ↔ (ChatMessagesStreamRaw api ctx req).2 = .error err)
      ∧ (∀ err, (ChatMessagesStreamRaw api ctx req).2 = .error err
        ↔ (api.createBaseRequest ctx "POST" "/v1/chat-messages"
              { ResponseMode := "streaming", others := req.others } = .error err
            ∨ ∃ httpReq, api.createBaseRequest ctx "POST" "/v1/chat-messages"
                { ResponseMode := "streaming", others := req.others } = .ok httpReq
              ∧ api.c.sendRequest httpReq = .error err))
      ∧ (∀ httpResp, (ChatMessagesStreamRaw api ctx req).2 = .ok httpResp
        → (ChatMessagesStream api um done ctx req).2
            = .ok ⟨chatMessagesStreamHandle um done httpResp.Body⟩) := by
  refine ⟨?_, ?_, ?_⟩
  · intro err
    simp only [ChatMessagesStream]
    split
    · rename_i h; simp [h]
    · rename_i h; simp [h]
  · intro err
    simp only [ChatMessagesStreamRaw]
    split
    · rename_i h; simp [h]
    · rename_i h; simp [h]
  · intro httpResp h
    simp only [ChatMessagesStream]
    split
    · rename_i h1; simp [h1] at h
    · rename_i h1
      simp only [h1, Except.ok.injEq] at h
      subst h; rfl

/-- C13 at the sample receiver: the raw call succeeds on a request that asked
for another mode, and the channel of the handler over the response is
returned. -/
theorem stream_fails_exactly_when_initiator_fails_witness :
    (ChatMessagesStream sampleAPI sampleUnmarshal neverDone () ⟨"blocking", ()⟩).2
      = .ok ⟨some [Effect.read, Effect.send { Event := "message" },
          Effect.read, Effect.send { Event := "workflow_finished" },
          Effect.closeChannel, Effect.closeBody]⟩ :=
  (stream_fails_exactly_when_initiator_fails sampleAPI sampleUnmarshal neverDone ()
    ⟨"blocking", ()⟩).2.2 ⟨⟨joinLines [messageLine, finishedLine], GoError.EOF⟩, ()⟩ rfl

/-- C15: every iteration that is not cancelled does what the classification
of the spec says for the result of its read, in the order read failure,
decode failure, "error", "workflow_finished", normal: it emits the item of
that class, at most one, and exactly one when the line has the prefix and is
decoded. For a stream of complete lines `ls` followed by bytes `tl` without a
newline the run ends, the number of items delivered is at most the number of
`data:` lines among `ls` plus one, and when it is that number plus one the
last item is the read failure. -/
theorem one_outcome_per_iteration (um : Unmarshal) (done : Nat → Bool)
    (ls : List (List Byte)) (tl : List Byte) (e : GoError)
    (hls : ∀ l ∈ ls, isLine l = true) (htl : isLine tl = true) :
    (∀ (fuel k : Nat) (r : Reader),
        streamLoop um done (fuel + 1) k r
          = if done k then some []
            else if (classify um (r.ReadBytes newline).1 (r.ReadBytes newline).2.1).stops then
              some (classify um (r.ReadBytes newline).1 (r.ReadBytes newline).2.1).effects
            else
              (streamLoop um done fuel (k + 1) (r.ReadBytes newline).2.2).map
                ((classify um (r.ReadBytes newline).1 (r.ReadBytes newline).2.1).effects ++ ·))
      ∧ (∀ line err, (sent (classify um line err).effects).length ≤ 1)
      ∧ (∀ line, HasPrefix line (bytesOf "data:") = true →
          (sent (classify um line none).effects).length = 1)
      ∧ ∃ items, delivered um done ⟨joinLines ls ++ tl, e⟩ = some items
          ∧ items.length ≤ (ls.filter isData).length + 1
          ∧ (items.length = (ls.filter isData).length + 1
              → items.getLast? = some (readFailure e)) := by
  refine ⟨streamLoop_classify um done, fun line err => effects_at_most_one _,
    classify_one_item um, ?_⟩
  obtain ⟨t, ht, hle, hlast⟩ := streamLoop_count um done tl e htl ls
    ((joinLines ls ++ tl).length + 1) 0 hls (by simp)
  exact ⟨sent t, by rw [delivered_eq, ht]; rfl, hle, hlast⟩

/-- C15 at a sample stream: a comment, a message frame and an unfinished
line; two items are delivered, one for the single `data:` line and the read
failure. -/
theorem one_outcome_per_iteration_witness :
    ∃ items, delivered sampleUnmarshal neverDone
          ⟨joinLines [pingLine, messageLine] ++ finishedLine, GoError.EOF⟩ = some items
      ∧ items.length ≤ ([pingLine, messageLine].filter isData).length + 1
      ∧ (items.length = ([pingLine, messageLine].filter isData).length + 1
          → items.getLast? = some (readFailure GoError.EOF)) :=
  (one_outcome_per_iteration sampleUnmarshal neverDone [pingLine, messageLine] finishedLine
    GoError.EOF (by decide) (by decide)).2.2.2

/-- C16: the prefix check is byte-exact. A line has the prefix exactly when
its first five bytes are `data:`; a line that begins with any other byte (a
space, a tab, a capital `D`) has not. The line read without the prefix is
discarded, whatever the decoder; the line read with it is decoded, and the
decoder receives the line less exactly these five bytes, the trailing newline
included. -/
theorem prefix_check_is_byte_exact (um : Unmarshal) (done : Nat → Bool) (fuel k : Nat)
    (l rest : List Byte) (e : GoError) (hd : done k = false) (hl : isLine l = true) :
    (∀ line, HasPrefix line (bytesOf "data:") = true ↔ line.take 5 = [100, 97, 116, 97, 58])
      ∧ (∀ x, TrimPrefix (bytesOf "data:" ++ x) (bytesOf "data:") = x)
      ∧ (∀ c x, c ≠ 100 → HasPrefix (c :: x) (bytesOf "data:") = false)
      ∧ ((l ++ [newline]).take 5 ≠ [100, 97, 116, 97, 58] →
          streamLoop um done (fuel + 1) k ⟨l ++ newline :: rest, e⟩
            = (streamLoop um done fuel (k + 1) ⟨rest, e⟩).map (Effect.read :: ·))
      ∧ ((l ++ [newline]).take 5 = [100, 97, 116, 97, 58] →
          streamLoop um done (fuel + 1) k ⟨l ++ newline :: rest, e⟩
            = match um ((l ++ [newline]).drop 5) with
              | (_, some cause) => some [Effect.read, Effect.send (decodeFailure cause)]
              | (resp, none) =>
                if resp.Event = "error" then
                  some [Effect.read, Effect.send (serverFailure ((l ++ [newline]).drop 5))]
                else if resp.Event = "workflow_finished" then
                  some [Effect.read, Effect.send { toChatMessageStreamResponse := resp }]
                else
                  (streamLoop um done fuel (k + 1) ⟨rest, e⟩).map
                    (fun t => Effect.read
                      :: Effect.send { toChatMessageStreamResponse := resp } :: t)) := by
  have hiff : ∀ line : List Byte,
      HasPrefix line (bytesOf "data:") = true ↔ line.take 5 = [100, 97, 116, 97, 58] := by
    intro line
    have h := hasPrefix_iff_take (bytesOf "data:") line
    rw [bytesOf_data] at h ⊢
    simpa using h
  refine ⟨hiff, fun x => trimPrefix_append _ x, ?_, ?_, ?_⟩
  · intro c x hc
    rw [bytesOf_data]
    simp [HasPrefix, hc]
  · intro hno
    have hp : isData l = false := by
      simp only [isData]
      cases h : HasPrefix (l ++ [newline]) (bytesOf "data:") with
      | false => rfl
      | true => exact absurd ((hiff _).mp h) hno
    exact streamLoop_skip um done fuel k l rest e hd hl hp
  · intro hyes
    have hp : HasPrefix (l ++ [newline]) (bytesOf "data:") = true := (hiff _).mpr hyes
    have ht : TrimPrefix (l ++ [newline]) (bytesOf "data:") = (l ++ [newline]).drop 5 := by
      simp only [TrimPrefix, hp, if_true]
      rw [bytesOf_data]; rfl
    rw [streamLoop_line um done fuel k l rest e hd hl]
    simp only [lineStep, hp, Bool.not_true, Bool.false_eq_true, if_false, ht]
    rfl

/-- C16 at a sample line: the message frame with a space before the prefix is
read and discarded, and the next read fails at the end of the stream. -/
theorem prefix_check_is_byte_exact_witness :
    streamLoop sampleUnmarshal neverDone 2 0 ⟨indentedLine ++ newline :: [], GoError.EOF⟩
      = some [Effect.read, Effect.read, Effect.send (readFailure GoError.EOF)] :=
  (prefix_check_is_byte_exact sampleUnmarshal neverDone 1 0 indentedLine [] GoError.EOF
    rfl (by decide)).2.2.2.1 (by decide)

/-- C17: a frame that decodes to an event whose discriminant is neither
"error" nor "workflow_finished" is delivered as a success item and the loop
goes on with the next read; a frame that decodes to "workflow_finished" is
delivered as a success item too, and the loop stops after it. The comparison
is exact: the empty string and variants in another letter case are ordinary
discriminants. -/
theorem only_exact_discriminants_are_special (um : Unmarshal) (done : Nat → Bool)
    (fuel k : Nat) (l rest : List Byte) (e : GoError)
    (hd : done k = false) (hl : isLine l = true) (hdata : isData l = true)
    (hok : (decode um l).2 = none) :
    (eventOf um l ≠ "error" → eventOf um l ≠ "workflow_finished" →
        streamLoop um done (fuel + 1) k ⟨l ++ newline :: rest, e⟩
          = (streamLoop um done fuel (k + 1) ⟨rest, e⟩).map
              (fun t => Effect.read :: Effect.send (eventItem um l) :: t))
      ∧ (eventOf um l = "workflow_finished" →
        streamLoop um done (fuel + 1) k ⟨l ++ newline :: rest, e⟩
          = some [Effect.read, Effect.send (eventItem um l)])
      ∧ (eventItem um l).Err = none
      ∧ (eventItem um l).toChatMessageStreamResponse = (decode um l).1
      ∧ (∀ ev ∈ ["", "message_end", "Error", "ERROR", "error ", "Workflow_Finished",
            "WORKFLOW_FINISHED", "workflow-finished"],
          ev ≠ "error" ∧ ev ≠ "workflow_finished") := by
  refine ⟨fun hne hnf => streamLoop_event um done fuel k l rest e hd hl hdata hok hne hnf,
    fun hev => streamLoop_finished um done fuel k l rest e hd hl hdata hok hev, rfl, rfl, ?_⟩
  decide

/-- C17 at a sample stream: the frame with discriminant "Error" is delivered
as a success item and the terminal frame after it is read and delivered. -/
theorem only_exact_discriminants_are_special_witness :
    streamLoop sampleUnmarshal neverDone 2 0
        ⟨shoutLine ++ newline :: joinLines [finishedLine], GoError.EOF⟩
      = some [Effect.read, Effect.send { Event := "Error" },
          Effect.read, Effect.send { Event := "workflow_finished" }] :=
  (only_exact_discriminants_are_special sampleUnmarshal neverDone 1 0 shoutLine
    (joinLines [finishedLine]) GoError.EOF rfl (by decide) (by decide) (by decide)).1
    (by decide) (by decide)

/-- C18: when one of the complete lines of a stream ends the loop (a frame
that fails to decode, an "error" frame or a "workflow_finished" frame), the
run is the same whatever bytes are appended to the stream: the same reads,
the same items, nothing more. -/
theorem nothing_after_terminating_line (um : Unmarshal) (done : Nat → Bool)
    (pre : List (List Byte)) (term u t : List Byte) (e : GoError)
    (hpre : ∀ l ∈ pre, isLine l = true) (hterm : isLine term = true)
    (hstop : continues um term = false) :
    chatMessagesStreamHandle um done ⟨joinLines (pre ++ [term]) ++ u ++ t, e⟩
        = chatMessagesStreamHandle um done ⟨joinLines (pre ++ [term]) ++ u, e⟩
      ∧ delivered um done ⟨joinLines (pre ++ [term]) ++ u ++ t, e⟩
        = delivered um done ⟨joinLines (pre ++ [term]) ++ u, e⟩ := by
  have h : chatMessagesStreamHandle um done ⟨joinLines (pre ++ [term]) ++ u ++ t, e⟩
      = chatMessagesStreamHandle um done ⟨joinLines (pre ++ [term]) ++ u, e⟩ := by
    simp only [chatMessagesStreamHandle, NewReader]
    rw [List.append_assoc,
      streamLoop_cut um done term (u ++ t) u e hterm hstop pre _
        ((joinLines (pre ++ [term]) ++ u).length + 1) 0 hpre (by simp) (by simp)]
  exact ⟨h, by simp only [delivered, h]⟩

/-- C18 at a sample stream: after the "error" frame a terminal frame is
appended, and the run does not change. -/
theorem nothing_after_terminating_line_witness :
    delivered sampleUnmarshal neverDone
        ⟨joinLines ([messageLine] ++ [errorLine]) ++ pingLine ++ joinLines [finishedLine],
          GoError.EOF⟩
      = delivered sampleUnmarshal neverDone
        ⟨joinLines ([messageLine] ++ [errorLine]) ++ pingLine, GoError.EOF⟩ :=
  (nothing_after_terminating_line sampleUnmarshal neverDone [messageLine] errorLine pingLine
    (joinLines [finishedLine]) GoError.EOF (by decide) (by decide) (by decide)).2

/-- C19: when the stream consists of complete lines none of which ends the
loop followed by a `data:` frame that no newline terminates, and the signal
does not fire before the reads, the read of that frame fails: its bytes are
consumed, it is never decoded, and the run ends with the read failure, for
every decoder and whatever the frame holds, although the same bytes followed
by a newline are a frame. -/
theorem unterminated_final_frame_is_dropped (um : Unmarshal) (done : Nat → Bool)
    (pre : List (List Byte)) (tl : List Byte) (e : GoError)
    (hdone : ∀ j, j ≤ pre.length → done j = false)
    (hpre : ∀ l ∈ pre, isLine l = true ∧ continues um l = true)
    (htl : isLine tl = true) (hframe : HasPrefix tl (bytesOf "data:") = true) :
    chatMessagesStreamHandle um done ⟨joinLines pre ++ tl, e⟩
        = some (lineEffects um pre
            ++ [Effect.read, Effect.send (readFailure e), Effect.closeChannel, Effect.closeBody])
      ∧ (NewReader ⟨tl, e⟩).ReadBytes newline = (tl, some e, ⟨[], e⟩)
      ∧ delivered um done ⟨joinLines pre ++ tl, e⟩ = some (events um pre ++ [readFailure e])
      ∧ (readFailure e).Err ≠ none
      ∧ isData tl = true := by
  have hdata : isData tl = true := by
    have h := hasPrefix_eq _ _ hframe
    simp only [isData]
    rw [hasPrefix_iff_take, h, List.append_assoc]
    simp
  refine ⟨?_, ReadBytes_fail tl e htl, ?_, by simp [readFailure], hdata⟩
  · rw [handle_lines um done tl e pre hpre (fun j hj => hdone j (Nat.le_of_lt hj)),
      streamLoop_readFail um done _ _ tl e (hdone _ (Nat.le_refl _)) htl]
    simp
  · rw [delivered_lines um done tl e pre hpre (fun j hj => hdone j (Nat.le_of_lt hj)),
      streamLoop_readFail um done _ _ tl e (hdone _ (Nat.le_refl _)) htl]
    simp [sent]

/-- C19 at a sample stream: a message frame, then the terminal frame without
its newline; the terminal event is not delivered. -/
theorem unterminated_final_frame_is_dropped_witness :
    delivered sampleUnmarshal neverDone ⟨joinLines [messageLine] ++ finishedLine, GoError.EOF⟩
      = some [{ Event := "message" },
          { Err := some (GoError.Errorf (bytesOf "error reading line: ") GoError.EOF) }] :=
  (unterminated_final_frame_is_dropped sampleUnmarshal neverDone [messageLine] finishedLine
    GoError.EOF (fun _ _ => rfl) (by decide) (by decide) (by decide)).2.2.1

end Dify
